import Mathlib

/-!
# Verification of the `nostd_env` micro heap (`src/mu/mu_heap.rs`, `src/mu/mu_alloc.rs`)

Shallow embedding of `MuHeap<i16>` (the narrow-index instantiation, cell size
4 bytes) and the `GlobalAlloc` adapter of `MuAlloc`.

Modelling conventions:
* The index type `i16` is modelled as `Int` together with explicit wrapping
  (`w16`, release-mode two's-complement semantics) at every `I`-typed
  addition/subtraction, and explicit truncation in `from_usize`/`to_usize`.
* `usize` values are modelled as `Nat` (no wrap; all relevant paths stay far
  below `2^64`, and `Layout` bounds sizes by `isize::MAX`).
* The heap's cell array is a total map `Int → Nat` from cell index to the
  cell's 4-byte content, so the `prev`/`next` management fields and user data
  bytes alias exactly as in the real memory.  Out-of-range reads return the
  map's value where the real program would fault; the theorems below only
  involve in-range executions.
* Loops (`do_alloc`'s scan, `free_cells`' two merge loops) take explicit fuel
  and return `Option`; `none` means the fuel ran out.
* Compile-time-disabled debug code (`DEBUG_HEAP = false`) and `debug_assert!`
  checks are not part of the model since they do not affect release behaviour.
-/

namespace MuHeapModel

/-- Interpret a value `u < 65536` as a two's-complement 16-bit integer. -/
def toI16 (u : Nat) : Int := if u < 32768 then (u : Int) else (u : Int) - 65536

/-- Wrap an integer to 16-bit two's-complement range (release-mode `i16` arithmetic). -/
def w16 (x : Int) : Int := toI16 (x % 65536).toNat

/-- The 16-bit unsigned representation of an `i16` value. -/
def encodeU16 (x : Int) : Nat := (x % 65536).toNat

/-- Wrapping 16-bit addition (`i16` `+`). -/
def addw (a b : Int) : Int := w16 (a + b)

/-- Wrapping 16-bit subtraction (`i16` `-`). -/
def subw (a b : Int) : Int := w16 (a - b)

/-- Ones'-complement negation, Rust's `!` on `i16` (never overflows). -/
def notI (x : Int) : Int := -x - 1

/-- Rust's `i16 as usize` (sign extension to 64 bits). -/
def toUsize (i : Int) : Nat := (i % (18446744073709551616 : Int)).toNat

/-- Rust's `usize as i16` (truncation to 16 bits, reinterpreted signed). -/
def fromUsize (n : Nat) : Int := toI16 (n % 65536)

/-- Cell array contents: cell index ↦ 4-byte cell content. -/
def Mem := Int → Nat

/-- The `prev` field of cell `i` (bytes 0–1, little endian). -/
def prevOf (m : Mem) (i : Int) : Int := toI16 (m i % 65536)

/-- The `next` field of cell `i` (bytes 2–3, little endian). -/
def nextOf (m : Mem) (i : Int) : Int := toI16 (m i / 65536 % 65536)

/-- Store `v` into the `prev` field of cell `i`. -/
def setPrev (m : Mem) (i v : Int) : Mem :=
  fun j => if j = i then (m i / 65536 % 65536) * 65536 + encodeU16 v else m j

/-- Store `v` into the `next` field of cell `i`. -/
def setNext (m : Mem) (i v : Int) : Mem :=
  fun j => if j = i then encodeU16 v * 65536 + m i % 65536 else m j

/-- The byte at byte-offset `o` from the array base. -/
def byteAt (m : Mem) (o : Nat) : Nat := m ((o / 4 : Nat) : Int) / 256 ^ (o % 4) % 256

/-- Overwrite the byte at byte-offset `o` with `b`. -/
def setByte (m : Mem) (o b : Nat) : Mem :=
  fun j =>
    if j = ((o / 4 : Nat) : Int) then
      let c := m j % 4294967296
      let k := o % 4
      c / 256 ^ (k + 1) * 256 ^ (k + 1) + b % 256 * 256 ^ k + c % 256 ^ k
    else m j

/-- `copy_nonoverlapping::<u8>` of `n` bytes, offsets measured from the array base. -/
def copyBytes (m : Mem) (src dst : Nat) : Nat → Mem
  | 0 => m
  | n + 1 =>
      let m' := copyBytes m src dst n
      setByte m' (dst + n) (byteAt m' (src + n))

/-- `struct MuHeap<i16>` (debug-only statistics omitted). -/
structure MuHeap where
  base : Nat
  ncells : Int
  searchStart : Int
  givenBase : Nat
  givenSize : Nat
  mem : Mem

/-- `enum Caller`. -/
inductive Caller
  | alloc
  | dealloc
  | grow
  | shrink
deriving DecidableEq

/-- `const MAX_ALIGNMENT: usize = 1024 / 8`. -/
def MAX_ALIGNMENT : Nat := 128

/-- `MuHeap::round_up`. -/
def roundUp (n m : Nat) : Nat := (n + m - 1) / m * m

/-- `MuHeap::ncells_up` for `I = i16` (`heapcell_size = 4`, `MAX_USIZE = 32767`). -/
def ncellsUp (n : Nat) : Int := fromUsize (min ((n + 4 - 1) / 4) 32767)

/-- `MuHeap::ncells_down` for `I = i16`. -/
def ncellsDown (n : Nat) : Int := fromUsize (min (n / 4) 32767)

/-- `MuHeap::align_cell`. -/
def alignCell (cur : Int) (align : Nat) : Int :=
  let curMemOff := toUsize (addw cur 1) * 4
  let aliMemOff := roundUp curMemOff align
  subw (fromUsize (aliMemOff / 4)) 1

/-- `MuHeap::cell_to_ptr`: address of the first data cell of the run headed at `i`. -/
def cellToPtr (h : MuHeap) (i : Int) : Nat := h.base + toUsize (addw i 1) * 4

/-- `MuHeap::ptr_to_cell`. -/
def ptrToCell (h : MuHeap) (p : Nat) : Int := subw (ncellsDown (p - h.base)) 1

/-- `MuHeap::adjust_heap` (its `assert!` on a too-small heap is a crash, outside
the model; the theorems use heaps where it passes). -/
def adjustHeap (givenBase givenSize : Nat) : Nat × Int :=
  let minAddr := roundUp (MAX_ALIGNMENT + 1) 4
  let minBase := minAddr - 4
  let p :=
    if givenBase < minBase then
      (givenBase + (minBase - givenBase), givenSize - (minBase - givenBase))
    else (givenBase, givenSize)
  (p.1, ncellsDown p.2)

/-- `MuHeap::build_heap`. -/
def buildHeap (h : MuHeap) : MuHeap :=
  let p := adjustHeap h.givenBase h.givenSize
  let m := setPrev h.mem 0 0
  let m := setNext m 0 0
  { h with base := p.1, ncells := p.2, mem := m }

/-- `MuHeap::alloc_cells`. -/
def allocCells (h : MuHeap) (cur bgn en nxt : Int) (caller : Caller) : MuHeap :=
  let m := h.mem
  let m := if cur < bgn then setPrev (setNext m cur (notI bgn)) bgn (notI cur) else m
  let m := setPrev (setNext m bgn en) en bgn
  let m :=
    if en < nxt then
      if nxt < h.ncells then setPrev (setNext m en (notI nxt)) nxt (notI en)
      else setNext m en 0
    else m
  let ss :=
    if caller = Caller.alloc ∨ (h.searchStart ≥ cur ∧ h.searchStart ≤ nxt) then en
    else h.searchStart
  { h with mem := m, searchStart := ss }

/-- The first loop of `MuHeap::free_cells` (faithful to the source, including
reading `cells[cur_i].prev` rather than `cells[prev].prev` in the loop body). -/
def findPrev (m : Mem) (cur : Int) : Nat → Int → Option Int
  | 0, _ => none
  | fuel + 1, prev =>
      if prev > 0 ∧ prevOf m prev < 0 then findPrev m cur fuel (notI (prevOf m cur))
      else some prev

/-- The second loop of `MuHeap::free_cells`. -/
def findNext (m : Mem) : Nat → Int → Option Int
  | 0, _ => none
  | fuel + 1, next =>
      if next > 0 ∧ nextOf m next < 0 then findNext m fuel (notI (nextOf m next))
      else some next

/-- `MuHeap::free_cells`. -/
def freeCells (h : MuHeap) (cur nxt : Int) (fuel : Nat) : Option MuHeap := do
  let prev ← findPrev h.mem cur fuel cur
  let next0 ← findNext h.mem fuel nxt
  let next := if nextOf h.mem next0 = 0 then 0 else next0
  let m := h.mem
  let m :=
    if prev ≠ next then
      if next = 0 then setNext m prev 0 else setNext m prev (notI next)
    else if prev = 0 then setNext m 0 0
    else m
  let m := if next > 0 then setPrev m next (notI prev) else m
  let ss :=
    if h.searchStart > prev ∧ (next = 0 ∨ h.searchStart ≤ next) then prev
    else h.searchStart
  some { h with mem := m, searchStart := ss }

/-- The scan loop of `MuHeap::do_alloc`.  Returns the allocated address paired
with the post-state; address `0` is the null pointer (allocation failure). -/
def allocLoop (h : MuHeap) (align : Nat) (req ss : Int) : Nat → Int → Option (Nat × MuHeap)
  | 0, _ => none
  | fuel + 1, cur =>
      let nv := nextOf h.mem cur
      if nv > 0 then
        if nv = ss then some (0, h) else allocLoop h align req ss fuel nv
      else if nv < 0 then
        let nxt := notI nv
        let bgn := alignCell cur align
        let free := subw (subw nxt bgn) 1
        if free ≥ req then
          let en := addw (addw bgn req) 1
          some (cellToPtr h bgn, allocCells h cur bgn en nxt Caller.alloc)
        else if nxt = ss then some (0, h) else allocLoop h align req ss fuel nxt
      else
        let nxt := h.ncells
        let bgn := alignCell cur align
        let free := subw (subw nxt bgn) 2
        if free ≥ req then
          let en := addw (addw bgn req) 1
          some (cellToPtr h bgn, allocCells h cur bgn en nxt Caller.alloc)
        else if (0 : Int) = ss then some (0, h) else allocLoop h align req ss fuel 0

/-- `MuHeap::do_alloc`. -/
def doAlloc (h : MuHeap) (size align : Nat) (fuel : Nat) : Option (Nat × MuHeap) :=
  allocLoop h align (ncellsUp size) h.searchStart fuel h.searchStart

/-- `MuHeap::do_dealloc`. -/
def doDealloc (h : MuHeap) (ptr : Nat) (fuel : Nat) : Option MuHeap :=
  let cur := ptrToCell h ptr
  let nxt := nextOf h.mem cur
  freeCells h cur nxt fuel

/-- `MuHeap::do_grow`. -/
def doGrow (h : MuHeap) (oldPtr oldSize newSize align : Nat) (fuel : Nat) :
    Option (Nat × MuHeap) :=
  let cur := ptrToCell h oldPtr
  let nxt := nextOf h.mem cur
  let farVal := nextOf h.mem nxt
  let inplace : Option (Nat × MuHeap) :=
    if farVal ≤ 0 then
      let far := if farVal < 0 then notI farVal else 0
      let req := ncellsUp newSize
      let en := addw (addw cur req) 1
      if en ≤ far then some (oldPtr, allocCells h cur cur en far Caller.grow)
      else none
    else none
  match inplace with
  | some r => some r
  | none => do
      let r ← doAlloc h newSize align fuel
      let newPtr := r.1
      let h1 := r.2
      let h2 :=
        if newPtr ≠ 0 then
          { h1 with mem := copyBytes h1.mem (oldPtr - h1.base) (newPtr - h1.base) oldSize }
        else h1
      let h3 ← doDealloc h2 oldPtr fuel
      some (newPtr, h3)

/-- `MuHeap::do_shrink`. -/
def doShrink (h : MuHeap) (ptr oldSize newSize : Nat) (fuel : Nat) :
    Option (Nat × MuHeap) :=
  let cur := ptrToCell h ptr
  let req := ncellsUp newSize
  let en := addw (addw cur req) 1
  let nxt := nextOf h.mem cur
  if en < nxt then do
    let h1 := allocCells h cur cur en nxt Caller.shrink
    let h2 ← freeCells h1 en nxt fuel
    some (ptr, h2)
  else some (ptr, h)

/-- `MuHeap::alloc` (public entry; builds the heap on first use, returns the
alignment value as the pointer for zero-sized requests). -/
def muAlloc (h : MuHeap) (size align : Nat) (fuel : Nat) : Option (Nat × MuHeap) :=
  let h := if h.base = 0 then buildHeap h else h
  if size = 0 then some (align, h) else doAlloc h size align fuel

/-- `MuHeap::dealloc` (public entry; zero-sized deallocation is a no-op). -/
def muDealloc (h : MuHeap) (ptr size : Nat) (fuel : Nat) : Option MuHeap :=
  if size = 0 then some h else doDealloc h ptr fuel

/-- `MuHeap::grow` (public entry). -/
def muGrow (h : MuHeap) (oldPtr oldSize newSize align : Nat) (fuel : Nat) :
    Option (Nat × MuHeap) :=
  if oldSize = 0 then doAlloc h newSize align fuel
  else doGrow h oldPtr oldSize newSize align fuel

/-- `MuHeap::shrink` (public entry). -/
def muShrink (h : MuHeap) (ptr oldSize newSize : Nat) (fuel : Nat) :
    Option (Nat × MuHeap) :=
  if oldSize = 0 then some (ptr, h) else doShrink h ptr oldSize newSize fuel

/-- `GlobalAlloc::realloc` for `MuAlloc`.  The third component records whether
the branch taken acquires the heap spinlock (`self.lock()`). -/
def reallocGA (h : MuHeap) (ptr laySize layAlign newSize : Nat) (fuel : Nat) :
    Option (Nat × MuHeap × Bool) :=
  if newSize < laySize then do
    let r ← muShrink h ptr laySize newSize fuel
    some (r.1, r.2, true)
  else if newSize > laySize then do
    let r ← muGrow h ptr laySize newSize layAlign fuel
    some (r.1, r.2, true)
  else some (ptr, h, false)

/-! ## Abstraction of the cell list as a list of runs

A `Run` describes one run of the doubly linked cell list: `size` data cells,
in use or free.  Run head indices are implicit: the first run is headed at
cell 0, each following run at the previous head plus `size + 1`.  The list
always ends in the terminal free region (`next == 0`), which is not listed. -/

/-- One run of the cell list. -/
structure Run where
  size : Int
  used : Bool
deriving DecidableEq

/-- The management links a run headed at cell `i` must carry. -/
def runOkB (m : Mem) (n i : Int) (r : Run) : Bool :=
  decide (0 ≤ i) && decide (0 ≤ r.size) && decide (i + r.size + 1 < n) &&
    (if r.used then
      decide (nextOf m i = i + r.size + 1) && decide (prevOf m (i + r.size + 1) = i)
     else
      decide (nextOf m i = notI (i + r.size + 1)) &&
        decide (prevOf m (i + r.size + 1) = notI i))

/-- Check a segment of runs starting at head `i`; returns the head index
following the segment. -/
def segB (m : Mem) (n : Int) : Int → List Run → Option Int
  | i, [] => some i
  | i, r :: rs => if runOkB m n i r then segB m n (i + r.size + 1) rs else none

/-- Check a full chain from head `i`: a segment of runs followed by the
terminal free region. -/
def chainB (m : Mem) (n i : Int) (rs : List Run) : Bool :=
  match segB m n i rs with
  | some j => decide (0 ≤ j) && decide (j < n) && decide (nextOf m j = 0)
  | none => false

/-- The heap's cell array is exactly the run list `rs` (plus the terminal
free region), with the invariants a consistently used `MuHeap<i16>` maintains. -/
def representsB (h : MuHeap) (rs : List Run) : Bool :=
  chainB h.mem h.ncells 0 rs && decide (prevOf h.mem 0 = 0) &&
    decide (h.ncells ≤ 32767)

/-- No two adjacent listed runs are both free. -/
def pairOkB : List Run → Bool
  | [] => true
  | [_] => true
  | r :: r' :: rs => (r.used || r'.used) && pairOkB (r' :: rs)

/-- The final listed run (if any) is in use. -/
def lastUsedB (rs : List Run) : Bool :=
  match rs.getLast? with
  | none => true
  | some r => r.used

/-- The first listed run (if any) is in use. -/
def headUsedB (rs : List Run) : Bool :=
  match rs.head? with
  | none => true
  | some r => r.used

/-- No two adjacent runs are both free; since every run list is followed by
the terminal free region, the final run must also be in use. -/
def noAdjFreeB (rs : List Run) : Bool :=
  pairOkB rs && lastUsedB rs

/-- At most one free run at the very end of a segment. -/
def tailOkB (A : List Run) : Bool :=
  match A.getLast? with
  | none => true
  | some r =>
      r.used ||
        (match A.dropLast.getLast? with
         | none => true
         | some r' => r'.used)

/-- At most one free run at the very start of a segment. -/
def headOkB (B : List Run) : Bool :=
  match B with
  | [] => true
  | r :: rest =>
      r.used ||
        (match rest with
         | [] => true
         | r' :: _ => r'.used)

/-- Strip a trailing free run, returning the shortened segment and the number
of cells (data cells plus head cell) given back by the stripped run. -/
def dropTailFree (A : List Run) : List Run × Int :=
  match A.getLast? with
  | none => (A, 0)
  | some r => if r.used then (A, 0) else (A.dropLast, r.size + 1)

/-- How `free_cells` absorbs the region after the freed run: the remaining
suffix, the number of extra cells merged from a leading free run, and whether
the merge runs into the terminal free region. -/
def mergeInfo (B : List Run) : List Run × Int × Bool :=
  match B with
  | [] => ([], 0, true)
  | r :: rest =>
      if r.used then (B, 0, false)
      else
        match rest with
        | [] => ([], r.size + 1, true)
        | _ => (rest, r.size + 1, false)

/-- The run list after `free_cells` frees a run of `sz` data cells placed
between segments `A` and `B`. -/
def mergedRuns (A : List Run) (sz : Int) (B : List Run) : List Run :=
  let a := dropTailFree A
  let b := mergeInfo B
  if b.2.2 then a.1 else a.1 ++ ⟨a.2 + sz + b.2.1, false⟩ :: b.1

/-- The `search_start` value after `free_cells`, as computed by the source. -/
def mergedSS (ss cur sz : Int) (A : List Run) (B : List Run) : Int :=
  let prev := cur - (dropTailFree A).2
  let next := if (mergeInfo B).2.2 then 0 else cur + sz + 1 + (mergeInfo B).2.1
  if ss > prev ∧ (next = 0 ∨ ss ≤ next) then prev else ss

/-- The run list after `do_shrink` splits the in-use run of `sz` data cells
at the new cell count `req` and coalesces the freed tail with what follows. -/
def shrunkRuns (A : List Run) (req sz : Int) (B : List Run) : List Run :=
  mergedRuns (A ++ [⟨req, true⟩]) (sz - req - 1) B

/-- The failure of `do_alloc`'s in-run fit check at a free run headed at `i`
whose following head is `j`, exactly as the source computes it. -/
def fitFailB (align : Nat) (req i j : Int) : Bool :=
  decide (subw (subw j (alignCell i align)) 1 < req)

/-- The fit check fails at every free run of the segment headed at `i`. -/
def failSegB (align : Nat) (req : Int) : Int → List Run → Bool
  | _, [] => true
  | i, r :: rs =>
      (r.used || fitFailB align req i (i + r.size + 1)) &&
        failSegB align req (i + r.size + 1) rs

/-- The fit check fails at the terminal free region headed at `t`. -/
def failTermB (align : Nat) (req n t : Int) : Bool :=
  decide (subw (subw n (alignCell t align)) 2 < req)

/-! ## Concrete heaps and scenarios used by the claims -/

/-- All-zero initial memory. -/
def mem0 : Mem := fun _ => 0

/-- Extract the returned pointer of an allocation result (0 when none). -/
def outPtr (r : Option (Nat × MuHeap)) : Nat :=
  match r with
  | some x => x.1
  | none => 0

/-- Extract the post-state of an allocation result. -/
def outHeap (r : Option (Nat × MuHeap)) (d : MuHeap) : MuHeap :=
  match r with
  | some x => x.2
  | none => d

/-- Extract the post-state of a deallocation result. -/
def outHeapD (r : Option MuHeap) (d : MuHeap) : MuHeap :=
  match r with
  | some x => x
  | none => d

/-- The canonical data pointer of the run headed at cell `cur`. -/
def runPtr (h : MuHeap) (cur : Int) : Nat := h.base + (cur.toNat + 1) * 4

/-- A freshly built 1024-cell heap at base 4096. -/
def hFresh : MuHeap :=
  buildHeap
    { base := 0, ncells := 0, searchStart := 0, givenBase := 4096,
      givenSize := 4096, mem := mem0 }

/-- A freshly built 4-cell heap at base 4096 (small witness heap). -/
def hTiny : MuHeap :=
  buildHeap
    { base := 0, ncells := 0, searchStart := 0, givenBase := 4096,
      givenSize := 16, mem := mem0 }

/-- A freshly built heap whose base 130 is aligned for `HeapCell<i16>`
(alignment 2) but not to larger powers of two. -/
def h130 : MuHeap :=
  buildHeap
    { base := 0, ncells := 0, searchStart := 0, givenBase := 130,
      givenSize := 4096, mem := mem0 }

/-- C3 scenario: allocate A (100 bytes). -/
def c3hA : MuHeap := outHeap (muAlloc hFresh 100 4 50) hFresh

/-- C3 scenario: A's address. -/
def c3ptrA : Nat := outPtr (muAlloc hFresh 100 4 50)

/-- C3 scenario: allocate B (50 bytes) after A. -/
def c3hB : MuHeap := outHeap (muAlloc c3hA 50 4 50) c3hA

/-- C3 scenario: free A. -/
def c3hD : MuHeap := outHeapD (muDealloc c3hB c3ptrA 100 50) c3hB

/-- C3 scenario: allocate C (60 bytes) after freeing A. -/
def c3resC : Option (Nat × MuHeap) := muAlloc c3hD 60 4 50

/-- C1 scenario: allocate A (3000 bytes, cells 0–751). -/
def c1hA : MuHeap := outHeap (muAlloc hFresh 3000 4 60) hFresh

/-- C1 scenario: allocate B (8 bytes, cells 751–754). -/
def c1ptrB : Nat := outPtr (muAlloc c1hA 8 4 60)

/-- C1 scenario: heap after allocating B. -/
def c1hB : MuHeap := outHeap (muAlloc c1hA 8 4 60) c1hA

/-- C1 scenario: allocate D (1072 bytes) filling the cells after B, so the
run following B is in use. -/
def c1hD : MuHeap := outHeap (muAlloc c1hB 1072 4 60) c1hB

/-- C1 scenario: grow B from 8 to 2000 bytes; no free run can hold 500
cells, so the internal allocation fails. -/
def c1res : Option (Nat × MuHeap) := muGrow c1hD c1ptrB 8 2000 4 60

/-- C6 scenario: allocate A (8 bytes, cells 0–3); the rest of the heap is
the terminal free region. -/
def c6hA : MuHeap := outHeap (muAlloc hFresh 8 1 50) hFresh

/-- C6 scenario: A's address. -/
def c6ptrA : Nat := outPtr (muAlloc hFresh 8 1 50)

/-- C6 scenario: grow A from 8 to 16 bytes. -/
def c6res : Option (Nat × MuHeap) := muGrow c6hA c6ptrA 8 16 1 50

/-- C5 scenario: an 8-byte allocation with alignment 4 on the base-130 heap. -/
def c5res : Option (Nat × MuHeap) := muAlloc h130 8 4 50

/-- C6 witness scenario: A (100 bytes, run 0–26), B (50 bytes, run 26–40),
C (50 bytes, run 40–54), then B freed: the run following A is a free run that
is not the terminal free region. -/
def c6wB : MuHeap := outHeap (muAlloc c3hB 50 4 50) c3hB

/-- C6 witness scenario: the heap after freeing B. -/
def c6wH : MuHeap :=
  outHeapD (muDealloc c6wB (outPtr (muAlloc c3hA 50 4 50)) 50 50) c6wB

/-- C9 witness scenario: shrink A (100 bytes, run 0–26) to 50 bytes on the
heap holding only A. -/
def c9res : Option (Nat × MuHeap) := muShrink c3hA c3ptrA 100 50 50

/-- C7 witness scenario: free A (run 0–26) on the heap holding A and B. -/
def c7res : Option MuHeap := muDealloc c3hB c3ptrA 100 50

/-- C7 witness scenario: shrink A (run 0–26) to 50 bytes on the heap holding
A and B. -/
def c7sres : Option (Nat × MuHeap) := muShrink c3hB c3ptrA 100 50 50

/-! ## Arithmetic lemmas for the 16-bit index semantics -/

theorem toI16_emod (u : Nat) : toI16 u % 65536 = (u : Int) % 65536 := by
  unfold toI16
  split
  · rfl
  · omega

theorem toI16_le {u : Nat} (h : u < 65536) : toI16 u ≤ 32767 := by
  unfold toI16
  split
  · omega
  · omega

theorem toI16_ge (u : Nat) : -32768 ≤ toI16 u := by
  unfold toI16
  split
  · omega
  · omega

theorem w16_emod (x : Int) : w16 x % 65536 = x % 65536 := by
  unfold w16
  rw [toI16_emod, Int.toNat_of_nonneg (Int.emod_nonneg x (by norm_num)),
    Int.emod_emod_of_dvd x dvd_rfl]

theorem w16_le (x : Int) : w16 x ≤ 32767 := by
  unfold w16
  refine toI16_le ?_
  have h1 : x % 65536 < 65536 := Int.emod_lt_of_pos x (by norm_num)
  omega

theorem w16_ge (x : Int) : -32768 ≤ w16 x := toI16_ge _

theorem w16_eq {x : Int} (h1 : -32768 ≤ x) (h2 : x ≤ 32767) : w16 x = x := by
  unfold w16 toI16
  split
  · omega
  · omega

theorem encodeU16_lt (v : Int) : encodeU16 v < 65536 := by
  unfold encodeU16
  have h1 : v % 65536 < 65536 := Int.emod_lt_of_pos v (by norm_num)
  have h2 : 0 ≤ v % 65536 := Int.emod_nonneg v (by norm_num)
  omega

theorem toI16_encodeU16 {v : Int} (h1 : -32768 ≤ v) (h2 : v ≤ 32767) :
    toI16 (encodeU16 v) = v := w16_eq h1 h2

theorem addw_eq {a b : Int} (h1 : -32768 ≤ a + b) (h2 : a + b ≤ 32767) :
    addw a b = a + b := w16_eq h1 h2

theorem subw_eq {a b : Int} (h1 : -32768 ≤ a - b) (h2 : a - b ≤ 32767) :
    subw a b = a - b := w16_eq h1 h2

theorem toUsize_of_nonneg {i : Int} (h1 : 0 ≤ i) (h2 : i ≤ 32767) :
    (toUsize i : Int) = i := by
  unfold toUsize
  rw [Int.toNat_of_nonneg (Int.emod_nonneg i (by norm_num))]
  exact Int.emod_eq_of_lt h1 (by omega)

/-! ## Cell field access lemmas -/

theorem prevOf_setPrev_self (m : Mem) (i : Int) {v : Int} (h1 : -32768 ≤ v)
    (h2 : v ≤ 32767) : prevOf (setPrev m i v) i = v := by
  unfold prevOf setPrev
  rw [if_pos rfl]
  have he : encodeU16 v < 65536 := encodeU16_lt v
  rw [show (m i / 65536 % 65536 * 65536 + encodeU16 v) % 65536 = encodeU16 v by
    omega]
  exact toI16_encodeU16 h1 h2

theorem prevOf_setPrev_ne (m : Mem) {i j : Int} (v : Int) (h : j ≠ i) :
    prevOf (setPrev m i v) j = prevOf m j := by
  unfold prevOf setPrev
  rw [if_neg h]

theorem nextOf_setPrev (m : Mem) (i v j : Int) :
    nextOf (setPrev m i v) j = nextOf m j := by
  unfold nextOf setPrev
  by_cases h : j = i
  · subst h
    rw [if_pos rfl]
    have he : encodeU16 v < 65536 := encodeU16_lt v
    rw [show (m j / 65536 % 65536 * 65536 + encodeU16 v) / 65536 % 65536
        = m j / 65536 % 65536 by omega]
  · rw [if_neg h]

theorem nextOf_setNext_self (m : Mem) (i : Int) {v : Int} (h1 : -32768 ≤ v)
    (h2 : v ≤ 32767) : nextOf (setNext m i v) i = v := by
  unfold nextOf setNext
  rw [if_pos rfl]
  have he : encodeU16 v < 65536 := encodeU16_lt v
  have hm : m i % 65536 < 65536 := Nat.mod_lt _ (by norm_num)
  rw [show (encodeU16 v * 65536 + m i % 65536) / 65536 % 65536 = encodeU16 v by
    omega]
  exact toI16_encodeU16 h1 h2

theorem nextOf_setNext_ne (m : Mem) {i j : Int} (v : Int) (h : j ≠ i) :
    nextOf (setNext m i v) j = nextOf m j := by
  unfold nextOf setNext
  rw [if_neg h]

theorem prevOf_setNext (m : Mem) (i v j : Int) :
    prevOf (setNext m i v) j = prevOf m j := by
  unfold prevOf setNext
  by_cases h : j = i
  · subst h
    rw [if_pos rfl]
    have hm : m j % 65536 < 65536 := Nat.mod_lt _ (by norm_num)
    rw [show (encodeU16 v * 65536 + m j % 65536) % 65536 = m j % 65536 by omega]
  · rw [if_neg h]

theorem byteAt_setNext_ne (m : Mem) {i : Int} (v : Int) {o : Nat}
    (h : ((o / 4 : Nat) : Int) ≠ i) : byteAt (setNext m i v) o = byteAt m o := by
  unfold byteAt setNext
  rw [if_neg h]

theorem byteAt_setPrev_ne (m : Mem) {i : Int} (v : Int) {o : Nat}
    (h : ((o / 4 : Nat) : Int) ≠ i) : byteAt (setPrev m i v) o = byteAt m o := by
  unfold byteAt setPrev
  rw [if_neg h]

/-! ## Claim C4 -/

/-- C4: for every alignment, `alloc(0, align)` on a built heap returns the
pointer numerically equal to `align` and leaves the heap (in particular the
cell array) completely unchanged, and the paired `dealloc(ptr, 0, align)`
performs no structural change to the cell list. -/
theorem claim_C4_zero_size_contract (h : MuHeap) (align ptr fuel : Nat)
    (hbuilt : h.base ≠ 0) :
    muAlloc h 0 align fuel = some (align, h) ∧ muDealloc h ptr 0 fuel = some h := by
  constructor
  · unfold muAlloc
    rw [if_neg hbuilt, if_pos rfl]
  · unfold muDealloc
    rw [if_pos rfl]

/-- Witness for C4 on the concrete 4-cell heap. -/
theorem claim_C4_zero_size_contract_witness :
    muAlloc hTiny 0 16 5 = some (16, hTiny) ∧ muDealloc hTiny 4100 0 5 = some hTiny :=
  claim_C4_zero_size_contract hTiny 16 4100 5 (by decide)

/-! ## Claim C10 -/

/-- C10: `GlobalAlloc::realloc` with `new_size = layout.size()` returns the
given pointer with the heap untouched and without acquiring the heap lock
(third component `false`); it dispatches to `shrink` exactly when
`new_size < layout.size()` and to `grow` exactly when `new_size > layout.size()`
(lock acquired, third component `true`). -/
theorem claim_C10_realloc_dispatch (h : MuHeap) (ptr laySize layAlign newSize fuel : Nat) :
    (newSize = laySize → reallocGA h ptr laySize layAlign newSize fuel = some (ptr, h, false)) ∧
    (newSize < laySize →
      reallocGA h ptr laySize layAlign newSize fuel =
        (muShrink h ptr laySize newSize fuel).map (fun r => (r.1, r.2, true))) ∧
    (laySize < newSize →
      reallocGA h ptr laySize layAlign newSize fuel =
        (muGrow h ptr laySize newSize layAlign fuel).map (fun r => (r.1, r.2, true))) := by
  refine ⟨fun he => ?_, fun hlt => ?_, fun hgt => ?_⟩
  · unfold reallocGA
    rw [if_neg (by omega), if_neg (by omega)]
  · unfold reallocGA
    rw [if_pos hlt]
    cases muShrink h ptr laySize newSize fuel <;> rfl
  · unfold reallocGA
    rw [if_neg (by omega), if_pos hgt]
    cases muGrow h ptr laySize newSize layAlign fuel <;> rfl

/-- Witness for C10 (equal-size case) on the concrete 4-cell heap. -/
theorem claim_C10_realloc_dispatch_witness :
    reallocGA hTiny 4100 8 4 8 5 = some (4100, hTiny, false) :=
  (claim_C10_realloc_dispatch hTiny 4100 8 4 8 5).1 rfl

/-! ## Claim C1 -/

/-- C1 (failing input): on `c1hD` the 8-byte allocation `B` sits at run head
751 (`next = 754`, in use) and the run following it is in use
(`next 754 > 0`), so `grow(B, 8, 2000, 4)` takes the relocation path; the
internal allocation of 2000 bytes fails (returned pointer 0), yet the old
allocation does not remain valid: `do_grow` unconditionally frees it, turning
cell 751's `next` link from 754 into the free link `¬754 = -755`. -/
theorem claim_C1_grow_failure_frees_old :
    c1ptrB = runPtr c1hD 751 ∧
    nextOf c1hD.mem 751 = 754 ∧
    nextOf c1hD.mem 754 = 1023 ∧
    c1res.map (fun r => (r.1, nextOf r.2.mem 751)) = some (0, -755) := by
  decide

/-! ## Claim C3 -/

/-- C3 (counterexample): on a freshly built heap, after `A := alloc(100, 4)`
(address 4100), `B := alloc(50, 4)` (address 4204), `dealloc(A, 100, 4)`, the
allocation `C := alloc(60, 4)` returns 4260 — not A's original address 4100,
because the scan starts at `search_start`, which still points past B. -/
theorem claim_C3_counterexample :
    c3ptrA = 4100 ∧
    (muAlloc c3hA 50 4 50).map Prod.fst = some 4204 ∧
    (muDealloc c3hB c3ptrA 100 50).isSome = true ∧
    c3resC.map Prod.fst = some 4260 ∧
    (4260 : Nat) ≠ 4100 := by
  decide

/-- C3 (amended): in the same scenario, C is carved from the run at
`search_start = 40`, the terminal free run immediately after B; A's former
run (head 0, now the free run `¬26`) with data address 4100 is left free,
to be reused only after the scan wraps. -/
theorem claim_C3_amended :
    c3hD.searchStart = 40 ∧
    nextOf c3hD.mem 40 = 0 ∧
    c3resC.map Prod.fst = some (runPtr c3hD 40) ∧
    nextOf c3hD.mem 0 = notI 26 ∧
    runPtr c3hD 0 = c3ptrA := by
  decide

/-! ## Claim C5 (counterexample part) -/

/-- C5 (counterexample): the base-130 heap (130 is 2-aligned, valid for
`HeapCell<i16>`) yields the allocation address 134 for `alloc(8, 4)`, which
is not a multiple of the requested (power-of-two, ≤ `MAX_ALIGNMENT`)
alignment 4: the engine aligns only the offset from `base`, never `base`. -/
theorem claim_C5_counterexample :
    h130.base = 130 ∧
    (4 : Nat) = 2 ^ 2 ∧ (4 : Nat) ≤ MAX_ALIGNMENT ∧
    c5res.map Prod.fst = some 134 ∧
    ¬ (4 : Nat) ∣ 134 := by
  decide

/-! ## Claim C6 (counterexample part) -/

/-- C6 (counterexample): allocation A (8 bytes) occupies run 0–3 and is
immediately followed by the terminal free run (`next 3 = 0`, 1020 free cells
— far more than the 4 cells needed for 16 bytes), yet `grow(A, 8, 16, 1)`
returns 4112 ≠ 4100: the source maps the terminal free run to `far_i = 0`,
so the in-place test `end_i ≤ far_i` fails and the data is relocated. -/
theorem claim_C6_counterexample :
    c6ptrA = 4100 ∧
    nextOf c6hA.mem 0 = 3 ∧
    nextOf c6hA.mem 3 = 0 ∧
    c6hA.ncells = 1024 ∧
    c6res.map Prod.fst = some 4112 ∧
    (4112 : Nat) ≠ 4100 := by
  decide

/-! ## Claim C5 (amended part): alignment of successful allocations -/

theorem toUsize_emod (z : Int) : (toUsize z : Int) % 65536 = z % 65536 := by
  unfold toUsize
  rw [Int.toNat_of_nonneg (Int.emod_nonneg z (by norm_num))]
  exact Int.emod_emod_of_dvd z ⟨281474976710656, by norm_num⟩

theorem roundUp_dvd (x : Nat) {m : Nat} : m ∣ roundUp x m :=
  dvd_mul_left m _

theorem roundUp_eq_self {x m : Nat} (hm : 0 < m) (h : m ∣ x) : roundUp x m = x := by
  obtain ⟨c, rfl⟩ := h
  unfold roundUp
  have h1 : m * c + m - 1 = m * c + (m - 1) := by omega
  rw [h1, Nat.mul_add_div hm, Nat.div_eq_of_lt (by omega), Nat.add_zero, Nat.mul_comm]

/-- The chain of 16-bit truncations applied to a cell index preserves its
value modulo 65536. -/
theorem truncChain (Q : Nat) :
    (toUsize (addw (subw (fromUsize Q) 1) 1) : Int) % 65536 = (Q : Int) % 65536 := by
  unfold addw subw fromUsize
  rw [toUsize_emod, w16_emod, Int.add_emod, w16_emod, Int.sub_emod, toI16_emod,
    Int.natCast_mod]
  push_cast
  omega

/-- The candidate address offset produced by `align_cell` is a multiple of the
(power-of-two, ≤ `MAX_ALIGNMENT`) alignment, through all 16-bit truncations. -/
theorem align_ptr_dvd (cur : Int) (k : Nat) (hk7 : k ≤ 7) :
    (2 ^ k : Nat) ∣ toUsize (addw (alignCell cur (2 ^ k)) 1) * 4 := by
  set a : Nat := 2 ^ k with ha
  set off : Nat := toUsize (addw cur 1) * 4 with hoff
  set ru : Nat := roundUp off a with hru
  set q : Nat := ru / 4 with hq
  have hapos : 0 < a := Nat.pos_pow_of_pos k (by norm_num)
  have hoff4 : (4 : Nat) ∣ off := ⟨toUsize (addw cur 1), Nat.mul_comm _ _⟩
  have hru4 : 4 ∣ ru := by
    by_cases hk2 : k ≤ 1
    · have hd4 : a ∣ 4 := by
        have hcase : k = 0 ∨ k = 1 := by omega
        rcases hcase with rfl | rfl
        · rw [ha]; norm_num
        · rw [ha]; norm_num
      rw [hru, roundUp_eq_self hapos (hd4.trans hoff4)]
      exact hoff4
    · have h4a : (4 : Nat) ∣ a := by
        have he : a = 4 * 2 ^ (k - 2) := by
          rw [ha, show (4 : Nat) = 2 ^ 2 by norm_num, ← pow_add]
          congr 1
          omega
        exact ⟨2 ^ (k - 2), he⟩
      exact h4a.trans (roundUp_dvd off)
  have hq4 : q * 4 = ru := Nat.div_mul_cancel hru4
  have hqa : a ∣ ru := roundUp_dvd off
  have hac : alignCell cur a = subw (fromUsize q) 1 := rfl
  have hmodInt :
      ((toUsize (addw (alignCell cur a) 1) : Nat) : Int) % 65536 = (q : Int) % 65536 := by
    rw [hac]
    exact truncChain q
  have hme : Nat.ModEq 65536 (toUsize (addw (alignCell cur a) 1)) q := by
    have hcast : toUsize (addw (alignCell cur a) 1) % 65536 = q % 65536 := by
      exact_mod_cast hmodInt
    exact hcast
  have hme4 : Nat.ModEq (65536 * 4) (toUsize (addw (alignCell cur a) 1) * 4) (q * 4) :=
    Nat.ModEq.mul_right' 4 hme
  have hda : a ∣ 65536 * 4 := by
    rw [show (65536 * 4 : Nat) = 2 ^ 18 by norm_num, ha]
    exact pow_dvd_pow 2 (by omega)
  have hmea : Nat.ModEq a (toUsize (addw (alignCell cur a) 1) * 4) (q * 4) :=
    Nat.ModEq.of_dvd hda hme4
  have hfin : Nat.ModEq a (toUsize (addw (alignCell cur a) 1) * 4) 0 := by
    refine hmea.trans ?_
    rw [hq4]
    exact (Nat.modEq_zero_iff_dvd).mpr hqa
  exact (Nat.modEq_zero_iff_dvd).mp hfin

/-- Every success exit of the scan loop returns an address that is `base`
plus an `align_cell`-produced offset; with an aligned base it is aligned. -/
theorem allocLoop_aligned (h : MuHeap) (align : Nat) (req ss : Int) (k : Nat)
    (hk : align = 2 ^ k) (hk7 : k ≤ 7) (hbase : align ∣ h.base) :
    ∀ fuel cur p h', allocLoop h align req ss fuel cur = some (p, h') →
      p = 0 ∨ align ∣ p := by
  intro fuel
  induction fuel with
  | zero =>
      intro cur p h' hcontra
      simp [allocLoop] at hcontra
  | succ f ih =>
      intro cur p h' heq
      simp only [allocLoop] at heq
      split at heq
      · split at heq
        · exact Or.inl (by injection heq with h1; injection h1 with h2 _; omega)
        · exact ih _ _ _ heq
      · split at heq
        · split at heq
          · refine Or.inr ?_
            injection heq with h1
            injection h1 with h2 _
            rw [← h2]
            unfold cellToPtr
            subst hk
            exact Nat.dvd_add hbase (align_ptr_dvd cur k hk7)
          · split at heq
            · exact Or.inl (by injection heq with h1; injection h1 with h2 _; omega)
            · exact ih _ _ _ heq
        · split at heq
          · refine Or.inr ?_
            injection heq with h1
            injection h1 with h2 _
            rw [← h2]
            unfold cellToPtr
            subst hk
            exact Nat.dvd_add hbase (align_ptr_dvd cur k hk7)
          · split at heq
            · exact Or.inl (by injection heq with h1; injection h1 with h2 _; omega)
            · exact ih _ _ _ heq

/-- C5 (amended): for every heap whose (adjusted) base is itself a multiple of
the requested alignment — a power of two no larger than `MAX_ALIGNMENT` — and
every `size > 0`, a successful `alloc(size, align)` returns an address that is
a multiple of `align`.  (The unamended claim, quantified over every
`given_base`, is refuted by `claim_C5_counterexample`.) -/
theorem claim_C5_amended (h : MuHeap) (size align fuel k p : Nat)
    (hk : align = 2 ^ k) (hk7 : k ≤ 7) (hbase : align ∣ h.base)
    (hbuilt : h.base ≠ 0) (hsize : size ≠ 0)
    (hres : (muAlloc h size align fuel).map Prod.fst = some p) (hp : p ≠ 0) :
    align ∣ p := by
  unfold muAlloc at hres
  rw [if_neg hbuilt, if_neg hsize] at hres
  unfold doAlloc at hres
  rcases Option.map_eq_some'.mp hres with ⟨r, hr, hrp⟩
  rcases allocLoop_aligned h align (ncellsUp size) h.searchStart k hk hk7 hbase
      fuel h.searchStart r.1 r.2 (by rw [← hr]) with h0 | hdvd
  · exact absurd (hrp ▸ h0) hp
  · exact hrp ▸ hdvd

/-- Witness for the amended C5 on the concrete 4-cell heap at base 4096. -/
theorem claim_C5_amended_witness :
    (muAlloc hTiny 8 4 5).map Prod.fst = some 4100 ∧ (4 : Nat) ∣ 4100 :=
  ⟨by decide,
   claim_C5_amended hTiny 8 4 5 2 4100 rfl (by decide) (by decide) (by decide)
     (by decide) (by decide) (by decide)⟩

/-! ## Claim C6 (amended part): in-place growth -/

theorem ncellsUp_eq {n : Nat} (hn : (n + 3) / 4 ≤ 32767) :
    ncellsUp n = (((n + 3) / 4 : Nat) : Int) := by
  unfold ncellsUp fromUsize toI16
  have hmin : min ((n + 4 - 1) / 4) 32767 = (n + 3) / 4 := by omega
  rw [hmin, Nat.mod_eq_of_lt (by omega), if_pos (by exact_mod_cast by omega)]

theorem ncellsUp_nonneg (n : Nat) : 0 ≤ ncellsUp n := by
  unfold ncellsUp fromUsize toI16
  split
  · positivity
  · have h1 : min ((n + 4 - 1) / 4) 32767 % 65536 < 65536 := Nat.mod_lt _ (by norm_num)
    omega

theorem ncellsUp_le (n : Nat) : ncellsUp n ≤ 32767 := by
  unfold ncellsUp fromUsize
  refine toI16_le ?_
  exact Nat.lt_of_le_of_lt (Nat.mod_le _ _) (by omega)

theorem size_le_four_ncellsUp {n : Nat} (hn : (n + 3) / 4 ≤ 32767) :
    (n : Int) ≤ 4 * ncellsUp n := by
  rw [ncellsUp_eq hn]
  have h1 : n ≤ 4 * ((n + 3) / 4) := by omega
  exact_mod_cast h1

theorem ptrToCell_runPtr (h : MuHeap) {cur : Int} (h0 : 0 ≤ cur)
    (h1 : cur + 1 ≤ 32767) : ptrToCell h (runPtr h cur) = cur := by
  obtain ⟨c, rfl⟩ := Int.eq_ofNat_of_zero_le h0
  have hc1 : c + 1 ≤ 32767 := by exact_mod_cast h1
  unfold ptrToCell runPtr ncellsDown fromUsize
  rw [show ((c : Int)).toNat = c by omega]
  have hsub : h.base + (c + 1) * 4 - h.base = (c + 1) * 4 := by omega
  rw [hsub]
  have hdiv : (c + 1) * 4 / 4 = c + 1 := by omega
  rw [hdiv]
  have hmin : min (c + 1) 32767 = c + 1 := by omega
  rw [hmin, Nat.mod_eq_of_lt (by omega)]
  unfold toI16
  rw [if_pos (show ((c + 1 : Nat)) < 32768 by omega)]
  unfold subw
  rw [show ((c + 1 : Nat) : Int) - 1 = (c : Int) by push_cast; ring]
  exact w16_eq (by omega) (by omega)

/-- `alloc_cells` only writes the management cells `cur`, `bgn`, `en`, `nxt`;
every byte in any other cell is untouched. -/
theorem byteAt_allocCells (h : MuHeap) (cur bgn en nxt : Int) (caller : Caller)
    {o : Nat} (h1 : ((o / 4 : Nat) : Int) ≠ cur) (h2 : ((o / 4 : Nat) : Int) ≠ bgn)
    (h3 : ((o / 4 : Nat) : Int) ≠ en) (h4 : ((o / 4 : Nat) : Int) ≠ nxt) :
    byteAt (allocCells h cur bgn en nxt caller).mem o = byteAt h.mem o := by
  unfold allocCells
  simp only
  repeat' split
  all_goals
    repeat
      first
      | rw [byteAt_setNext_ne _ _ h1]
      | rw [byteAt_setNext_ne _ _ h2]
      | rw [byteAt_setNext_ne _ _ h3]
      | rw [byteAt_setNext_ne _ _ h4]
      | rw [byteAt_setPrev_ne _ _ h1]
      | rw [byteAt_setPrev_ne _ _ h2]
      | rw [byteAt_setPrev_ne _ _ h3]
      | rw [byteAt_setPrev_ne _ _ h4]

/-- C6 (amended): whenever the run immediately following allocation `p` is a
free run *other than the terminal free region* (`next` of the boundary cell is
negative) and, combined with `p`'s run, is large enough for `new_size`
(`cur + req + 1 ≤ ¬far_val`), `grow(p, old_size, new_size, align)` extends in
place: the returned pointer equals `p` and the first `old_size` bytes are
neither copied nor modified.  (The unamended claim, which also covers the
terminal free region, is refuted by `claim_C6_counterexample`.) -/
theorem claim_C6_amended (h : MuHeap) (oldPtr oldSize newSize align fuel : Nat)
    (cur : Int)
    (hcur0 : 0 ≤ cur)
    (hop : oldPtr = runPtr h cur)
    (hos0 : oldSize ≠ 0)
    (hos : oldSize ≤ newSize)
    (hns : (newSize + 3) / 4 ≤ 32767)
    (hreqb : cur + ncellsUp newSize + 1 ≤ 32767)
    (hfar : nextOf h.mem (nextOf h.mem cur) < 0)
    (hfit : cur + ncellsUp newSize + 1 ≤ notI (nextOf h.mem (nextOf h.mem cur))) :
    ∃ h', muGrow h oldPtr oldSize newSize align fuel = some (oldPtr, h') ∧
      ∀ j < oldSize,
        byteAt h'.mem (oldPtr - h.base + j) = byteAt h.mem (oldPtr - h.base + j) := by
  have hreq0 : 0 ≤ ncellsUp newSize := ncellsUp_nonneg newSize
  set req : Int := ncellsUp newSize with hreqdef
  have hcell : ptrToCell h oldPtr = cur := by
    rw [hop]
    exact ptrToCell_runPtr h hcur0 (by omega)
  set nxt : Int := nextOf h.mem cur with hnxtdef
  set farVal : Int := nextOf h.mem nxt with hfvdef
  set far : Int := notI farVal with hfardef
  have hen : addw (addw cur req) 1 = cur + req + 1 := by
    rw [@addw_eq cur req (by omega) (by omega)]
    exact @addw_eq (cur + req) 1 (by omega) (by omega)
  have hgrow : muGrow h oldPtr oldSize newSize align fuel =
      some (oldPtr, allocCells h cur cur (cur + req + 1) far Caller.grow) := by
    unfold muGrow
    rw [if_neg hos0]
    unfold doGrow
    simp only [hcell]
    rw [← hnxtdef, ← hfvdef]
    rw [if_pos (le_of_lt hfar), if_pos hfar, ← hfardef, ← hreqdef, hen,
      if_pos hfit]
  refine ⟨allocCells h cur cur (cur + req + 1) far Caller.grow, hgrow, ?_⟩
  intro j hj
  set o : Nat := oldPtr - h.base + j with hodef
  have hob : o = (cur.toNat + 1) * 4 + j := by
    rw [hodef, hop]
    unfold runPtr
    omega
  have hcurn : (cur.toNat : Int) = cur := Int.toNat_of_nonneg hcur0
  have hlow : cur.toNat + 1 ≤ o / 4 := by omega
  have hhigh : (o / 4 : Nat) ≤ cur.toNat + ((oldSize + 3) / 4) := by omega
  have hreq4 : (oldSize : Int) ≤ 4 * req := by
    calc (oldSize : Int) ≤ (newSize : Int) := by exact_mod_cast hos
    _ ≤ 4 * req := size_le_four_ncellsUp hns
  have hceil : ((oldSize + 3) / 4 : Nat) ≤ req.toNat := by
    have h4 : (oldSize : Int) ≤ 4 * (req.toNat : Int) := by
      rw [Int.toNat_of_nonneg hreq0]
      exact hreq4
    have h4n : oldSize ≤ 4 * req.toNat := by exact_mod_cast h4
    omega
  have hne1 : ((o / 4 : Nat) : Int) ≠ cur := by omega
  have hne3 : ((o / 4 : Nat) : Int) ≠ cur + req + 1 := by
    have : ((o / 4 : Nat) : Int) ≤ cur + req := by
      calc ((o / 4 : Nat) : Int) ≤ ((cur.toNat + (oldSize + 3) / 4 : Nat) : Int) := by
            exact_mod_cast hhigh
      _ ≤ cur + req := by
            push_cast
            rw [hcurn]
            have := hceil
            have hc : (((oldSize + 3) / 4 : Nat) : Int) ≤ req := by
              calc (((oldSize + 3) / 4 : Nat) : Int) ≤ (req.toNat : Int) := by
                    exact_mod_cast hceil
              _ = req := Int.toNat_of_nonneg hreq0
            omega
    omega
  have hne4 : ((o / 4 : Nat) : Int) ≠ far := by
    have : cur + req + 1 ≤ far := hfit
    omega
  exact byteAt_allocCells h cur cur (cur + req + 1) far Caller.grow hne1 hne1 hne3 hne4

/-- Witness for the amended C6: on `c6wH`, allocation A (run 0–26, 100 bytes)
is followed by the non-terminal free run 26–40 and grows in place to 140
bytes. -/
theorem claim_C6_amended_witness :
    ∃ h', muGrow c6wH (runPtr c6wH 0) 100 140 4 10 = some (runPtr c6wH 0, h') ∧
      ∀ j < 100,
        byteAt h'.mem (runPtr c6wH 0 - c6wH.base + j) =
          byteAt c6wH.mem (runPtr c6wH 0 - c6wH.base + j) :=
  claim_C6_amended c6wH (runPtr c6wH 0) 100 140 4 10 0 (by decide) rfl
    (by decide) (by decide) (by decide) (by decide) (by decide) (by decide)

/-! ## Claim C8: index arithmetic bounds and rejection of oversize requests -/

theorem ncellsUp_clamp {n : Nat} (hn : 32767 < (n + 3) / 4) : ncellsUp n = 32767 := by
  unfold ncellsUp
  rw [show min ((n + 4 - 1) / 4) 32767 = 32767 by omega]
  decide

theorem toUsize_natCast {n : Nat} (hn : n < 18446744073709551616) :
    toUsize (n : Int) = n := by
  unfold toUsize
  rw [Int.emod_eq_of_lt (by positivity) (by exact_mod_cast hn)]
  omega

/-- For a scan position `0 ≤ cur ≤ 32766` and a power-of-two alignment up to
`MAX_ALIGNMENT`, `align_cell` either wraps to exactly 32767 (the 16-bit
truncation of offset `131072`) or lands between `cur` and 32766. -/
theorem alignCell_cases (k : Nat) (hk7 : k ≤ 7) {cur : Int} (h0 : 0 ≤ cur)
    (h1 : cur ≤ 32766) :
    alignCell cur (2 ^ k) = 32767 ∨
      (cur ≤ alignCell cur (2 ^ k) ∧ alignCell cur (2 ^ k) ≤ 32766) := by
  obtain ⟨c, rfl⟩ := Int.eq_ofNat_of_zero_le h0
  have hc : c ≤ 32766 := by exact_mod_cast h1
  unfold alignCell
  simp only
  rw [show addw (c : Int) 1 = ((c + 1 : Nat) : Int) by
    rw [@addw_eq c 1 (by omega) (by omega)]
    push_cast
    ring]
  rw [toUsize_natCast (by omega)]
  set q : Nat := roundUp ((c + 1) * 4) (2 ^ k) / 4 with hq
  have hqb : c + 1 ≤ q ∧ q ≤ 32768 := by
    rw [hq]
    unfold roundUp
    interval_cases k <;> constructor <;> omega
  rcases hqb with ⟨hql, hqu⟩
  rcases Nat.lt_or_ge q 32768 with hq7 | hq8
  · right
    unfold fromUsize
    rw [Nat.mod_eq_of_lt (by omega)]
    unfold toI16
    rw [if_pos (by omega)]
    rw [show subw ((q : Nat) : Int) 1 = ((q : Nat) : Int) - 1 from
      @subw_eq q 1 (by omega) (by omega)]
    constructor
    · have : (c : Int) + 1 ≤ (q : Int) := by exact_mod_cast hql
      omega
    · have : (q : Int) ≤ 32767 := by exact_mod_cast (by omega : q ≤ 32767)
      omega
  · left
    have hq32768 : q = 32768 := by omega
    rw [hq32768]
    decide

/-- With the clamped request of 32767 cells, every fit check of the scan loop
fails on a heap of at most 32767 cells with in-bounds links, so the scan can
only return the null pointer with the heap unchanged. -/
theorem allocLoop_reject (h : MuHeap) (k : Nat) (hk7 : k ≤ 7) (ss : Int)
    (hn1 : 1 ≤ h.ncells) (hn : h.ncells ≤ 32767)
    (hb : ∀ i : Int, 0 ≤ i → i < h.ncells →
      (0 < nextOf h.mem i → nextOf h.mem i < h.ncells) ∧
      (nextOf h.mem i < 0 → notI (nextOf h.mem i) < h.ncells)) :
    ∀ fuel cur r, 0 ≤ cur → cur < h.ncells →
      allocLoop h (2 ^ k) 32767 ss fuel cur = some r → r = (0, h) := by
  intro fuel
  induction fuel with
  | zero =>
      intro cur r _ _ hc
      simp [allocLoop] at hc
  | succ f ih =>
      intro cur r hc0 hcn heq
      have hcur66 : cur ≤ 32766 := by omega
      have hbc := hb cur hc0 hcn
      simp only [allocLoop] at heq
      split at heq
      · -- in-use run: skip to the next head
        split at heq
        · injection heq with h1
          exact h1.symm
        · exact ih _ _ (by omega) (hbc.1 (by assumption)) heq
      · split at heq
        · -- free run: the fit check must fail
          split at heq
          · exfalso
            rename_i hnv0 hnv hfit
            have hnxt : notI (nextOf h.mem cur) < h.ncells := hbc.2 hnv
            have hnxt0 : 0 ≤ notI (nextOf h.mem cur) := by
              unfold notI
              omega
            rcases alignCell_cases k hk7 hc0 hcur66 with hb32 | ⟨hbl, hbr⟩
            · rw [hb32] at hfit
              rw [show subw (notI (nextOf h.mem cur)) 32767
                  = notI (nextOf h.mem cur) - 32767 from
                @subw_eq (notI (nextOf h.mem cur)) 32767 (by omega) (by omega)] at hfit
              rw [show subw (notI (nextOf h.mem cur) - 32767) 1
                  = notI (nextOf h.mem cur) - 32767 - 1 from
                @subw_eq (notI (nextOf h.mem cur) - 32767) 1 (by omega) (by omega)] at hfit
              omega
            · rw [show subw (notI (nextOf h.mem cur)) (alignCell cur (2 ^ k))
                  = notI (nextOf h.mem cur) - alignCell cur (2 ^ k) from
                @subw_eq (notI (nextOf h.mem cur)) (alignCell cur (2 ^ k))
                  (by omega) (by omega)] at hfit
              rw [show subw (notI (nextOf h.mem cur) - alignCell cur (2 ^ k)) 1
                  = notI (nextOf h.mem cur) - alignCell cur (2 ^ k) - 1 from
                @subw_eq (notI (nextOf h.mem cur) - alignCell cur (2 ^ k)) 1
                  (by omega) (by omega)] at hfit
              omega
          · split at heq
            · injection heq with h1
              exact h1.symm
            · rename_i hnv0 hnv _ _
              have hnxt : notI (nextOf h.mem cur) < h.ncells := hbc.2 hnv
              have hnxt0 : 0 ≤ notI (nextOf h.mem cur) := by
                unfold notI
                omega
              exact ih _ _ hnxt0 hnxt heq
        · -- terminal free region: the fit check must fail
          split at heq
          · exfalso
            rename_i hnv0 hnv hfit
            rcases alignCell_cases k hk7 hc0 hcur66 with hb32 | ⟨hbl, hbr⟩
            · rw [hb32] at hfit
              rw [show subw h.ncells 32767 = h.ncells - 32767 from
                @subw_eq h.ncells 32767 (by omega) (by omega)] at hfit
              rw [show subw (h.ncells - 32767) 2 = h.ncells - 32767 - 2 from
                @subw_eq (h.ncells - 32767) 2 (by omega) (by omega)] at hfit
              omega
            · rw [show subw h.ncells (alignCell cur (2 ^ k))
                  = h.ncells - alignCell cur (2 ^ k) from
                @subw_eq h.ncells (alignCell cur (2 ^ k)) (by omega) (by omega)] at hfit
              rw [show subw (h.ncells - alignCell cur (2 ^ k)) 2
                  = h.ncells - alignCell cur (2 ^ k) - 2 from
                @subw_eq (h.ncells - alignCell cur (2 ^ k)) 2 (by omega) (by omega)] at hfit
              omega
          · split at heq
            · injection heq with h1
              exact h1.symm
            · exact ih _ _ le_rfl (by omega) heq

/-- C8: (1) for every requested size, the cell-count computation `ncells_up`
stays within the `i16` maximum 32767; (2) on any sane heap (at most 32767
cells, in-bounds links, in-range cursor, power-of-two alignment up to
`MAX_ALIGNMENT`), a size requesting more cells than `i16` can represent is
rejected: `alloc` returns the null pointer and changes nothing — the clamped
request of 32767 cells can never be satisfied. -/
theorem claim_C8_index_bounds :
    (∀ n : Nat, 0 ≤ ncellsUp n ∧ ncellsUp n ≤ 32767) ∧
    (∀ (h : MuHeap) (size align fuel k : Nat) (r : Nat × MuHeap),
      align = 2 ^ k → k ≤ 7 → h.base ≠ 0 →
      0 ≤ h.searchStart → h.searchStart < h.ncells → h.ncells ≤ 32767 →
      (∀ i : Nat, i < h.ncells.toNat →
        (0 < nextOf h.mem (i : Int) → nextOf h.mem (i : Int) < h.ncells) ∧
        (nextOf h.mem (i : Int) < 0 → notI (nextOf h.mem (i : Int)) < h.ncells)) →
      32767 < (size + 3) / 4 →
      muAlloc h size align fuel = some r → r = (0, h)) := by
  constructor
  · exact fun n => ⟨ncellsUp_nonneg n, ncellsUp_le n⟩
  · intro h size align fuel k r hk hk7 hbase hss0 hssn hn hb hsize heq
    have hsz0 : size ≠ 0 := by omega
    unfold muAlloc at heq
    rw [if_neg hbase, if_neg hsz0] at heq
    unfold doAlloc at heq
    rw [ncellsUp_clamp hsize, hk] at heq
    refine allocLoop_reject h k hk7 h.searchStart (by omega) hn ?_ fuel
      h.searchStart r hss0 hssn heq
    intro i hi0 hin
    have hb' := hb i.toNat (by omega)
    rw [Int.toNat_of_nonneg hi0] at hb'
    exact hb'

/-- Witness for C8 on the concrete 4-cell heap with a 200000-byte request
(50000 cells needed, more than `i16` can represent). -/
theorem claim_C8_index_bounds_witness :
    (32767 < (200000 + 3) / 4) ∧ ((0, hTiny) : Nat × MuHeap) = (0, hTiny) :=
  ⟨by decide,
   claim_C8_index_bounds.2 hTiny 200000 4 5 2 (0, hTiny) rfl (by decide)
     (by decide) (by decide) (by decide) (by decide) (by decide) (by decide) rfl⟩

/-! ## Run-chain infrastructure -/

theorem runOkB_iff {m : Mem} {n i : Int} {r : Run} :
    runOkB m n i r = true ↔
      0 ≤ i ∧ 0 ≤ r.size ∧ i + r.size + 1 < n ∧
        (r.used = true → nextOf m i = i + r.size + 1 ∧ prevOf m (i + r.size + 1) = i) ∧
        (r.used = false →
          nextOf m i = notI (i + r.size + 1) ∧ prevOf m (i + r.size + 1) = notI i) := by
  unfold runOkB
  cases hr : r.used <;>
    simp [hr, Bool.and_eq_true, decide_eq_true_eq] <;> tauto

theorem runOkB_congr {m m' : Mem} {n i : Int} {r : Run}
    (hn : nextOf m' i = nextOf m i)
    (hp : prevOf m' (i + r.size + 1) = prevOf m (i + r.size + 1)) :
    runOkB m' n i r = runOkB m n i r := by
  unfold runOkB
  rw [hn, hp]

theorem segB_append (m : Mem) (n : Int) (A B : List Run) (i : Int) :
    segB m n i (A ++ B) = (segB m n i A).bind (fun j => segB m n j B) := by
  induction A generalizing i with
  | nil => rfl
  | cons r rs ih =>
      simp only [List.cons_append, segB]
      split
      · exact ih _
      · rfl

theorem segB_le {m : Mem} {n : Int} {A : List Run} {i j : Int}
    (h : segB m n i A = some j) : i ≤ j := by
  induction A generalizing i with
  | nil =>
      injection h with h1
      omega
  | cons r rs ih =>
      simp only [segB] at h
      split at h
      · rename_i hok
        have hsz : 0 ≤ r.size := (runOkB_iff.mp hok).2.1
        have := ih h
        omega
      · exact absurd h (by simp)

theorem segB_frame {m m' : Mem} {n : Int} {A : List Run} :
    ∀ {i j : Int}, segB m n i A = some j →
    (∀ c, i ≤ c → c < j → nextOf m' c = nextOf m c) →
    (∀ c, i < c → c ≤ j → prevOf m' c = prevOf m c) →
    segB m' n i A = some j := by
  induction A with
  | nil =>
      intro i j h _ _
      exact h
  | cons r rs ih =>
      intro i j h hnext hprev
      simp only [segB] at h ⊢
      split at h
      · rename_i hok
        have hsz : 0 ≤ r.size := (runOkB_iff.mp hok).2.1
        have hij : i + r.size + 1 ≤ j := segB_le h
        rw [runOkB_congr (hnext i le_rfl (by omega))
          (hprev (i + r.size + 1) (by omega) (by omega)), if_pos hok]
        exact ih h (fun c h1 h2 => hnext c (by omega) h2)
          (fun c h1 h2 => hprev c (by omega) h2)
      · exact absurd h (by simp)

theorem chainB_cons_eq {m : Mem} {n i : Int} {r : Run} {rs : List Run} :
    chainB m n i (r :: rs) =
      if runOkB m n i r = true then chainB m n (i + r.size + 1) rs else false := by
  unfold chainB
  simp only [segB]
  by_cases hok : runOkB m n i r = true
  · rw [if_pos hok, if_pos hok]
  · rw [if_neg hok, if_neg hok]

theorem chainB_cons {m : Mem} {n i : Int} {r : Run} {rs : List Run} :
    chainB m n i (r :: rs) = true ↔
      runOkB m n i r = true ∧ chainB m n (i + r.size + 1) rs = true := by
  rw [chainB_cons_eq]
  by_cases hok : runOkB m n i r = true
  · simp [hok]
  · simp [hok]

theorem chainB_nil {m : Mem} {n i : Int} :
    chainB m n i [] = true ↔ 0 ≤ i ∧ i < n ∧ nextOf m i = 0 := by
  unfold chainB
  simp [segB, Bool.and_eq_true, decide_eq_true_eq, and_assoc]

theorem chainB_append_iff {m : Mem} {n i : Int} {A B : List Run} :
    chainB m n i (A ++ B) = true ↔
      ∃ j, segB m n i A = some j ∧ chainB m n j B = true := by
  unfold chainB
  rw [segB_append]
  cases hs : segB m n i A with
  | none => simp
  | some j =>
      simp only [Option.some_bind]
      constructor
      · intro hc
        exact ⟨j, rfl, hc⟩
      · rintro ⟨j', hj', hc⟩
        injection hj' with hj'
        subst hj'
        exact hc

theorem chainB_bounds {m : Mem} {n i : Int} {A : List Run}
    (h : chainB m n i A = true) : 0 ≤ i ∧ i < n := by
  cases A with
  | nil =>
      have := chainB_nil.mp h
      exact ⟨this.1, this.2.1⟩
  | cons r rs =>
      have hok := (chainB_cons.mp h).1
      have h1 := (runOkB_iff.mp hok).1
      have h2 := (runOkB_iff.mp hok).2.1
      have h3 := (runOkB_iff.mp hok).2.2.1
      exact ⟨h1, by omega⟩

theorem chainB_frame {m m' : Mem} {n : Int} {A : List Run} :
    ∀ {i : Int}, chainB m n i A = true →
    (∀ c, i ≤ c → c < n → nextOf m' c = nextOf m c) →
    (∀ c, i < c → c < n → prevOf m' c = prevOf m c) →
    chainB m' n i A = true := by
  induction A with
  | nil =>
      intro i h hnext hprev
      rcases chainB_nil.mp h with ⟨h1, h2, h3⟩
      exact chainB_nil.mpr ⟨h1, h2, by rw [hnext i le_rfl h2]; exact h3⟩
  | cons r rs ih =>
      intro i h hnext hprev
      rcases chainB_cons.mp h with ⟨hok, hch⟩
      rcases runOkB_iff.mp hok with ⟨h1, h2, h3, _⟩
      refine chainB_cons.mpr ⟨?_, ?_⟩
      · rw [runOkB_congr (hnext i le_rfl (by omega))
          (hprev (i + r.size + 1) (by omega) h3)]
        exact hok
      · exact ih hch (fun c hc1 hc2 => hnext c (by omega) hc2)
          (fun c hc1 hc2 => hprev c (by omega) hc2)

/-! Computation rules for the merge bookkeeping -/

theorem dropTailFree_nil : dropTailFree [] = ([], 0) := rfl

theorem dropTailFree_used (A₀ : List Run) (ls : Int) :
    dropTailFree (A₀ ++ [⟨ls, true⟩]) = (A₀ ++ [⟨ls, true⟩], 0) := by
  simp [dropTailFree, List.getLast?_concat]

theorem dropTailFree_free (A₀ : List Run) (ls : Int) :
    dropTailFree (A₀ ++ [⟨ls, false⟩]) = (A₀, ls + 1) := by
  simp [dropTailFree, List.getLast?_concat, List.dropLast_concat]

theorem tailOkB_two_free (A₁ : List Run) (ls' ls : Int) :
    tailOkB ((A₁ ++ [⟨ls', false⟩]) ++ [⟨ls, false⟩]) = false := by
  simp [tailOkB, List.getLast?_concat, List.dropLast_concat]

theorem findPrev_stop {m : Mem} {cur prev : Int} {f : Nat}
    (h : ¬(prev > 0 ∧ prevOf m prev < 0)) :
    findPrev m cur (f + 1) prev = some prev := by
  simp [findPrev, h]

theorem findPrev_go {m : Mem} {cur prev : Int} {f : Nat}
    (h : prev > 0 ∧ prevOf m prev < 0) :
    findPrev m cur (f + 1) prev = findPrev m cur f (notI (prevOf m cur)) := by
  simp [findPrev, h]

theorem findNext_stop {m : Mem} {next : Int} {f : Nat}
    (h : ¬(next > 0 ∧ nextOf m next < 0)) :
    findNext m (f + 1) next = some next := by
  simp [findNext, h]

theorem findNext_go {m : Mem} {next : Int} {f : Nat}
    (h : next > 0 ∧ nextOf m next < 0) :
    findNext m (f + 1) next = findNext m f (notI (nextOf m next)) := by
  simp [findNext, h]

theorem notI_notI (x : Int) : notI (notI x) = x := by
  unfold notI
  ring

theorem chainB_iff {m : Mem} {n i : Int} {A : List Run} :
    chainB m n i A = true ↔
      ∃ j, segB m n i A = some j ∧ 0 ≤ j ∧ j < n ∧ nextOf m j = 0 := by
  unfold chainB
  cases hs : segB m n i A with
  | none => simp
  | some j =>
      simp only [Bool.and_eq_true, decide_eq_true_eq]
      constructor
      · rintro ⟨⟨h1, h2⟩, h3⟩
        exact ⟨j, rfl, h1, h2, h3⟩
      · rintro ⟨j', hj', h1, h2, h3⟩
        injection hj' with hj'
        subst hj'
        exact ⟨⟨h1, h2⟩, h3⟩

theorem mergeInfo_nil : mergeInfo [] = ([], 0, true) := rfl

theorem mergeInfo_used (gs : Int) (B' : List Run) :
    mergeInfo (⟨gs, true⟩ :: B') = (⟨gs, true⟩ :: B', 0, false) := by
  simp [mergeInfo]

theorem mergeInfo_free_nil (fs : Int) : mergeInfo [⟨fs, false⟩] = ([], fs + 1, true) := by
  simp [mergeInfo]

theorem mergeInfo_free_cons (fs : Int) (r : Run) (B₃ : List Run) :
    mergeInfo (⟨fs, false⟩ :: r :: B₃) = (r :: B₃, fs + 1, false) := by
  simp [mergeInfo]

/-- Characterization of the backward merge loop of `free_cells`: starting from
the head `cur` of the freed run (reached through segment `A`), it stops at the
head of the merged region, absorbing a trailing free run of `A` if present. -/
theorem findPrev_spec (m : Mem) (n : Int) (A : List Run) (cur : Int) (f : Nat)
    (hseg : segB m n 0 A = some cur)
    (htail : tailOkB A = true) :
    ∃ A' exL, dropTailFree A = (A', exL) ∧
      findPrev m cur (f + 3) cur = some (cur - exL) ∧
      segB m n 0 A' = some (cur - exL) ∧ 0 ≤ exL ∧ lastUsedB A' = true := by
  rcases List.eq_nil_or_concat A with rfl | ⟨A₀, r, rfl⟩
  · injection hseg with hcur
    subst hcur
    refine ⟨[], 0, dropTailFree_nil, ?_, rfl, le_rfl, rfl⟩
    rw [show (0 : Int) - 0 = 0 by omega]
    refine findPrev_stop ?_
    rintro ⟨h1, -⟩
    omega
  · rw [List.concat_eq_append] at hseg htail ⊢
    rw [segB_append] at hseg
    cases hp : segB m n 0 A₀ with
    | none =>
        rw [hp] at hseg
        exact absurd hseg (by simp)
    | some p =>
        rw [hp] at hseg
        simp only [Option.some_bind, segB] at hseg
        split at hseg
        · rename_i hok
          injection hseg with hcur
          obtain ⟨ls, lu⟩ := r
          rcases runOkB_iff.mp hok with ⟨hp0, hls0', hbnd', hlu⟩
          have hls0 : (0 : Int) ≤ ls := hls0'
          have hbnd : p + ls + 1 < n := hbnd'
          cases lu
          · -- trailing free run: two loop iterations
            have hcur2 : p + ls + 1 = cur := hcur
            have hprevcur : prevOf m cur = notI p := by
              rw [← hcur]
              exact (hlu.2 rfl).2
            have hcurpos : cur > 0 := by omega
            have hstep : findPrev m cur (f + 2 + 1) cur
                = findPrev m cur (f + 2) (notI (prevOf m cur)) :=
              findPrev_go ⟨hcurpos, by rw [hprevcur]; unfold notI; omega⟩
            refine ⟨A₀, ls + 1, dropTailFree_free A₀ ls, ?_⟩
            rw [show f + 3 = f + 2 + 1 by omega, hstep, hprevcur, notI_notI]
            have hsub : cur - (ls + 1) = p := by omega
            rw [hsub]
            rcases List.eq_nil_or_concat A₀ with rfl | ⟨A₁, r', rfl⟩
            · injection hp with hp'
              subst hp'
              refine ⟨?_, rfl, by omega, rfl⟩
              rw [show f + 2 = f + 1 + 1 by omega]
              exact findPrev_stop (by rintro ⟨h1, -⟩; omega)
            · rw [List.concat_eq_append] at hp htail ⊢
              obtain ⟨ls', lu'⟩ := r'
              cases lu'
              · exact absurd htail (by rw [tailOkB_two_free]; simp)
              · -- previous run in use: stop at p
                rw [segB_append] at hp
                cases hp' : segB m n 0 A₁ with
                | none =>
                    rw [hp'] at hp
                    exact absurd hp (by simp)
                | some p' =>
                    rw [hp'] at hp
                    simp only [Option.some_bind, segB] at hp
                    split at hp
                    · rename_i hok'
                      injection hp with hpp
                      rcases runOkB_iff.mp hok' with ⟨hq0, hq1, hq2, hq3⟩
                      have hprevp : prevOf m p = p' := by
                        rw [← hpp]
                        exact (hq3.1 rfl).2
                      have hq0' : (0 : Int) ≤ p' := hq0
                      refine ⟨?_, ?_, by omega, by simp [lastUsedB, List.getLast?_concat]⟩
                      · rw [show f + 2 = f + 1 + 1 by omega]
                        refine findPrev_stop ?_
                        rintro ⟨-, hneg⟩
                        rw [hprevp] at hneg
                        omega
                      · rw [segB_append, hp']
                        simp only [Option.some_bind, segB]
                        rw [if_pos hok', hpp]
                    · exact absurd hp (by simp)
          · -- trailing run in use: stop immediately
            have hcur2 : p + ls + 1 = cur := hcur
            have hprevcur : prevOf m cur = p := by
              rw [← hcur]
              exact (hlu.1 rfl).2
            have hp0' : (0 : Int) ≤ p := hp0
            refine ⟨A₀ ++ [⟨ls, true⟩], 0, dropTailFree_used A₀ ls, ?_, ?_, le_rfl,
              by simp [lastUsedB, List.getLast?_concat]⟩
            · rw [show cur - 0 = cur by omega]
              refine findPrev_stop ?_
              rintro ⟨-, hneg⟩
              rw [hprevcur] at hneg
              omega
            · rw [show cur - 0 = cur by omega, segB_append, hp]
              simp only [Option.some_bind, segB]
              rw [if_pos hok, hcur]
        · exact absurd hseg (by simp)

/-- Characterization of the forward merge loop of `free_cells` starting at the
cell `nxt` that ends the freed run. -/
theorem findNext_spec (m : Mem) (n : Int) (B : List Run) (nxt : Int) (f : Nat)
    (hch : chainB m n nxt B = true)
    (hhead : headOkB B = true)
    (hnxt : 0 < nxt) :
    ∃ nx0 B' exR toEnd, findNext m (f + 2) nxt = some nx0 ∧
      mergeInfo B = (B', exR, toEnd) ∧
      (toEnd = true → nextOf m nx0 = 0) ∧
      (toEnd = false →
        nx0 = nxt + exR ∧ nextOf m nx0 ≠ 0 ∧ 0 < nx0 ∧ nx0 < n ∧
          0 ≤ exR ∧ chainB m n nx0 B' = true ∧
          headUsedB B' = true ∧ lastUsedB B' = lastUsedB B ∧ B' ≠ []) := by
  cases B with
  | nil =>
      rcases chainB_nil.mp hch with ⟨h1, h2, h3⟩
      refine ⟨nxt, [], 0, true, ?_, mergeInfo_nil, fun _ => h3,
        fun hc => by simp at hc⟩
      rw [show f + 2 = f + 1 + 1 by omega]
      refine findNext_stop ?_
      rintro ⟨-, hneg⟩
      omega
  | cons r B' =>
      obtain ⟨gs, gu⟩ := r
      rcases chainB_cons.mp hch with ⟨hok, hch'⟩
      rcases runOkB_iff.mp hok with ⟨h1, h2', h3', h4⟩
      have h2 : (0 : Int) ≤ gs := h2'
      have h3 : nxt + gs + 1 < n := h3'
      cases gu
      · -- leading free run: one hop
        have hnext : nextOf m nxt = notI (nxt + gs + 1) := (h4.2 rfl).1
        have hstep : findNext m (f + 1 + 1) nxt = findNext m (f + 1) (notI (nextOf m nxt)) :=
          findNext_go ⟨hnxt, by rw [hnext]; unfold notI; omega⟩
        cases B' with
        | nil =>
            rcases chainB_nil.mp hch' with ⟨g1', g2', g3⟩
            have g2 : nxt + gs + 1 < n := g2'
            have g3' : nextOf m (nxt + gs + 1) = 0 := g3
            refine ⟨nxt + gs + 1, [], gs + 1, true, ?_, mergeInfo_free_nil gs,
              fun _ => g3', fun hc => by simp at hc⟩
            rw [show f + 2 = f + 1 + 1 by omega, hstep, hnext, notI_notI]
            exact findNext_stop (by rintro ⟨-, hneg⟩; omega)
        | cons r' B₃ =>
            obtain ⟨gs', gu'⟩ := r'
            cases gu'
            · exact absurd hhead (by simp [headOkB])
            · rcases chainB_cons.mp hch' with ⟨hok', hch''⟩
              rcases runOkB_iff.mp hok' with ⟨g1, g2', g3', g4⟩
              have g2 : (0 : Int) ≤ gs' := g2'
              have g3 : nxt + gs + 1 + gs' + 1 < n := g3'
              have hnext' : nextOf m (nxt + gs + 1) = nxt + gs + 1 + gs' + 1 :=
                (g4.1 rfl).1
              refine ⟨nxt + gs + 1, ⟨gs', true⟩ :: B₃, gs + 1, false, ?_,
                mergeInfo_free_cons gs ⟨gs', true⟩ B₃,
                fun hc => by simp at hc, ?_⟩
              · rw [show f + 2 = f + 1 + 1 by omega, hstep, hnext, notI_notI]
                refine findNext_stop ?_
                rintro ⟨-, hneg⟩
                rw [hnext'] at hneg
                omega
              · intro _
                refine ⟨by omega, by rw [hnext']; omega, by omega, by omega,
                  by omega, hch', by simp [headUsedB],
                  by simp [lastUsedB, List.getLast?_cons_cons], by simp⟩
      · -- following run in use: stop at nxt
        have hnext : nextOf m nxt = nxt + gs + 1 := (h4.1 rfl).1
        refine ⟨nxt, ⟨gs, true⟩ :: B', 0, false, ?_,
          mergeInfo_used gs B', fun hc => by simp at hc, ?_⟩
        · rw [show f + 2 = f + 1 + 1 by omega]
          refine findNext_stop ?_
          rintro ⟨-, hneg⟩
          rw [hnext] at hneg
          omega
        · intro _
          exact ⟨by omega, by rw [hnext]; omega, by omega, by omega, le_rfl, hch,
            by simp [headUsedB], rfl, by simp⟩

/-- Unfolding of `free_cells` once both merge loops have produced results. -/
theorem freeCells_eq (h : MuHeap) (cur nxt : Int) (fuel : Nat) (prev nx0 : Int)
    (hfp : findPrev h.mem cur fuel cur = some prev)
    (hfn : findNext h.mem fuel nxt = some nx0) :
    freeCells h cur nxt fuel =
      some
        { h with
          mem :=
            (fun next =>
              (fun m => if next > 0 then setPrev m next (notI prev) else m)
                (if prev ≠ next then
                    if next = 0 then setNext h.mem prev 0
                    else setNext h.mem prev (notI next)
                  else if prev = 0 then setNext h.mem 0 0 else h.mem))
              (if nextOf h.mem nx0 = 0 then 0 else nx0),
          searchStart :=
            (fun next =>
              if h.searchStart > prev ∧ (next = 0 ∨ h.searchStart ≤ next) then prev
              else h.searchStart)
              (if nextOf h.mem nx0 = 0 then 0 else nx0) } := by
  unfold freeCells
  rw [hfp, hfn]
  rfl

/-- Master specification of `free_cells` on a consistently used heap: freeing
the run of `sz` data cells between segments `A` and `B` merges it with any
immediately adjacent free runs on both sides (and with the terminal free
region when it follows directly), and moves `search_start` to the merged
head exactly when it pointed inside the merged span. -/
theorem freeCells_spec (h : MuHeap) (A : List Run) (sz : Int) (u : Bool) (B : List Run)
    (cur : Int) (f : Nat)
    (hrep : representsB h (A ++ ⟨sz, u⟩ :: B) = true)
    (hseg : segB h.mem h.ncells 0 A = some cur)
    (htail : tailOkB A = true)
    (hhead : headOkB B = true) :
    ∃ h', freeCells h cur (cur + sz + 1) (f + 3) = some h' ∧
      representsB h' (mergedRuns A sz B) = true ∧
      h'.searchStart = mergedSS h.searchStart cur sz A B ∧
      h'.base = h.base ∧ h'.ncells = h.ncells ∧
      h'.givenBase = h.givenBase ∧ h'.givenSize = h.givenSize := by
  have hrep' := hrep
  simp only [representsB, Bool.and_eq_true, decide_eq_true_eq] at hrep'
  obtain ⟨⟨hchain, hp0⟩, hn32⟩ := hrep'
  rcases chainB_append_iff.mp hchain with ⟨j, hsegj, hchB⟩
  rw [hseg] at hsegj
  injection hsegj with hj
  subst hj
  rcases chainB_cons.mp hchB with ⟨hok, hchB'⟩
  rcases runOkB_iff.mp hok with ⟨hcur0, hsz0', hnxtn', -⟩
  have hsz0 : (0 : Int) ≤ sz := hsz0'
  have hnxtn : cur + sz + 1 < h.ncells := hnxtn'
  have hchB2 : chainB h.mem h.ncells (cur + sz + 1) B = true := hchB'
  obtain ⟨A', exL, hdtf, hfp, hsegA', hexL, hluA⟩ :=
    findPrev_spec h.mem h.ncells A cur f hseg htail
  obtain ⟨nx0, B', exR, toEnd, hfn, hmi, htoE, htoNE⟩ :=
    findNext_spec h.mem h.ncells B (cur + sz + 1) (f + 1) hchB2 hhead (by omega)
  have hfn3 : findNext h.mem (f + 3) (cur + sz + 1) = some nx0 := hfn
  have hprev0 : 0 ≤ cur - exL := segB_le hsegA'
  have hprevn : cur - exL ≤ 32766 := by omega
  rw [freeCells_eq h cur (cur + sz + 1) (f + 3) (cur - exL) nx0 hfp hfn3]
  cases toEnd
  · -- the merged free run ends before the terminal free region
    obtain ⟨hnx0eq, hnx0ne, hnx0pos, hnx0n, hexR, hchB3, hhuB, hluB, hneB⟩ := htoNE rfl
    rw [if_neg hnx0ne]
    simp only
    rw [if_pos (show cur - exL ≠ nx0 by omega), if_neg (show ¬ nx0 = 0 by omega),
      if_pos (show nx0 > 0 from hnx0pos)]
    refine ⟨_, rfl, ?_, ?_, rfl, rfl, rfl, rfl⟩
    · -- the resulting heap represents the merged run list
      have hmerged : mergedRuns A sz B = A' ++ ⟨exL + sz + exR, false⟩ :: B' := by
        unfold mergedRuns
        rw [hdtf, hmi]
        rfl
      rw [hmerged]
      simp only [representsB, Bool.and_eq_true, decide_eq_true_eq]
      set m2 : Mem :=
        setPrev (setNext h.mem (cur - exL) (notI nx0)) nx0 (notI (cur - exL)) with hm2
      have hnI1 : -32768 ≤ notI nx0 ∧ notI nx0 ≤ 32767 := by
        unfold notI
        constructor <;> omega
      have hnI2 : -32768 ≤ notI (cur - exL) ∧ notI (cur - exL) ≤ 32767 := by
        unfold notI
        constructor <;> omega
      have hnext_prev : nextOf m2 (cur - exL) = notI nx0 := by
        rw [hm2, nextOf_setPrev, nextOf_setNext_self _ _ hnI1.1 hnI1.2]
      have hprev_nx0 : prevOf m2 nx0 = notI (cur - exL) := by
        rw [hm2, prevOf_setPrev_self _ _ hnI2.1 hnI2.2]
      have harith : (cur - exL) + (⟨exL + sz + exR, false⟩ : Run).size + 1 = nx0 := by
        show (cur - exL) + (exL + sz + exR) + 1 = nx0
        omega
      refine ⟨⟨?_, ?_⟩, hn32⟩
      · refine chainB_append_iff.mpr ⟨cur - exL, ?_, ?_⟩
        · refine segB_frame hsegA' ?_ ?_
          · intro c hc1 hc2
            rw [hm2, nextOf_setPrev, nextOf_setNext_ne _ _ (show c ≠ cur - exL by omega)]
          · intro c hc1 hc2
            rw [hm2, prevOf_setPrev_ne _ _ (show c ≠ nx0 by omega), prevOf_setNext]
        · refine chainB_cons.mpr ⟨?_, ?_⟩
          · refine runOkB_iff.mpr
              ⟨hprev0, show (0 : Int) ≤ exL + sz + exR by omega,
                show (cur - exL) + (exL + sz + exR) + 1 < h.ncells by omega, ?_, ?_⟩
            · intro hcon
              simp at hcon
            · intro _
              rw [harith]
              exact ⟨hnext_prev, hprev_nx0⟩
          · rw [harith]
            refine chainB_frame hchB3 ?_ ?_
            · intro c hc1 hc2
              rw [hm2, nextOf_setPrev, nextOf_setNext_ne _ _ (show c ≠ cur - exL by omega)]
            · intro c hc1 hc2
              rw [hm2, prevOf_setPrev_ne _ _ (show c ≠ nx0 by omega), prevOf_setNext]
      · rw [hm2, prevOf_setPrev_ne _ _ (show (0 : Int) ≠ nx0 by omega), prevOf_setNext]
        exact hp0
    · -- search_start
      have hms : mergedSS h.searchStart cur sz A B =
          if h.searchStart > cur - exL ∧
              (cur + sz + 1 + exR = 0 ∨ h.searchStart ≤ cur + sz + 1 + exR)
          then cur - exL else h.searchStart := by
        unfold mergedSS
        rw [hdtf, hmi]
        rfl
      rw [hms, hnx0eq]
  · -- the freed run merges into the terminal free region
    have hnx0 : nextOf h.mem nx0 = 0 := htoE rfl
    rw [if_pos hnx0]
    simp only [if_true, true_or, and_true, gt_iff_lt, lt_self_iff_false, if_false]
    have hm1 : (if cur - exL ≠ (0 : Int) then setNext h.mem (cur - exL) 0
        else if cur - exL = 0 then setNext h.mem 0 0 else h.mem)
        = setNext h.mem (cur - exL) 0 := by
      by_cases hpz : cur - exL = 0
      · rw [if_neg (show ¬ (cur - exL ≠ (0 : Int)) from fun hh => hh hpz), if_pos hpz, hpz]
      · rw [if_pos (show cur - exL ≠ (0 : Int) from hpz)]
    rw [hm1]
    refine ⟨_, rfl, ?_, ?_, rfl, rfl, rfl, rfl⟩
    · -- the resulting heap represents the merged run list
      have hmerged : mergedRuns A sz B = A' := by
        unfold mergedRuns
        rw [hdtf, hmi]
        rfl
      rw [hmerged]
      simp only [representsB, Bool.and_eq_true, decide_eq_true_eq]
      refine ⟨⟨?_, ?_⟩, hn32⟩
      · refine chainB_iff.mpr ⟨cur - exL, ?_, hprev0, by omega, ?_⟩
        · refine segB_frame hsegA' ?_ ?_
          · intro c hc1 hc2
            rw [nextOf_setNext_ne _ _ (show c ≠ cur - exL by omega)]
          · intro c hc1 hc2
            rw [prevOf_setNext]
        · exact nextOf_setNext_self _ _ (by omega) (by omega)
      · rw [prevOf_setNext]
        exact hp0
    · have hms : mergedSS h.searchStart cur sz A B =
          if h.searchStart > cur - exL then cur - exL else h.searchStart := by
        simp [mergedSS, hdtf, hmi]
      rw [hms]

/-! ## List-level lemmas about adjacency of free runs -/

theorem pairOkB_cons_cons {x y : Run} {l : List Run} :
    pairOkB (x :: y :: l) = true ↔
      (x.used || y.used) = true ∧ pairOkB (y :: l) = true := by
  simp [pairOkB, Bool.and_eq_true]

theorem pairOkB_tail {x : Run} {l : List Run} (h : pairOkB (x :: l) = true) :
    pairOkB l = true := by
  cases l with
  | nil => rfl
  | cons y l' => exact (pairOkB_cons_cons.mp h).2

theorem pairOkB_left : ∀ {X Y : List Run}, pairOkB (X ++ Y) = true → pairOkB X = true := by
  intro X
  induction X with
  | nil => intro Y _; rfl
  | cons x X' ih =>
      intro Y h
      cases X' with
      | nil => rfl
      | cons x' X'' =>
          have h' := pairOkB_cons_cons.mp h
          exact pairOkB_cons_cons.mpr ⟨h'.1, ih h'.2⟩

theorem pairOkB_suffix : ∀ {X Y : List Run}, pairOkB (X ++ Y) = true → pairOkB Y = true := by
  intro X
  induction X with
  | nil => exact fun h => h
  | cons x X' ih => exact fun h => ih (pairOkB_tail h)

theorem pairOkB_pair :
    ∀ {X : List Run} {a b : Run} {Y : List Run},
      pairOkB (X ++ a :: b :: Y) = true → (a.used || b.used) = true := by
  intro X
  induction X with
  | nil => exact fun h => (pairOkB_cons_cons.mp h).1
  | cons x X' ih => exact fun h => ih (pairOkB_tail h)

theorem lastUsedB_cons_cons {x y : Run} {l : List Run} :
    lastUsedB (x :: y :: l) = lastUsedB (y :: l) := by
  simp [lastUsedB]

theorem lastUsedB_append_cons {X : List Run} {y : Run} {Y : List Run} :
    lastUsedB (X ++ y :: Y) = lastUsedB (y :: Y) := by
  induction X with
  | nil => rfl
  | cons x X' ih =>
      cases X' with
      | nil => exact lastUsedB_cons_cons
      | cons x' X'' =>
          have h2 : (x :: x' :: X'') ++ y :: Y = x :: x' :: (X'' ++ y :: Y) := rfl
          rw [h2, lastUsedB_cons_cons]
          exact ih

theorem pairOkB_glue :
    ∀ {X Y : List Run}, pairOkB X = true → lastUsedB X = true → pairOkB Y = true →
      pairOkB (X ++ Y) = true := by
  intro X
  induction X with
  | nil => exact fun _ _ h => h
  | cons x X' ih =>
      intro Y hpx hlx hpy
      cases X' with
      | nil =>
          cases Y with
          | nil => rfl
          | cons y Y' =>
              refine pairOkB_cons_cons.mpr ⟨?_, hpy⟩
              have hx : x.used = true := by simpa [lastUsedB] using hlx
              simp [hx]
      | cons x' X'' =>
          have h' := pairOkB_cons_cons.mp hpx
          have hlx' : lastUsedB (x' :: X'') = true := by
            rw [← lastUsedB_cons_cons (x := x)]
            exact hlx
          exact pairOkB_cons_cons.mpr ⟨h'.1, ih h'.2 hlx' hpy⟩

theorem pairOkB_build_cons {mr : Run} {Y : List Run} (hh : headUsedB Y = true)
    (hp : pairOkB Y = true) : pairOkB (mr :: Y) = true := by
  cases Y with
  | nil => rfl
  | cons y Y' =>
      refine pairOkB_cons_cons.mpr ⟨?_, hp⟩
      have hy : y.used = true := by simpa [headUsedB] using hh
      simp [hy]

theorem noAdjFreeB_iff {rs : List Run} :
    noAdjFreeB rs = true ↔ pairOkB rs = true ∧ lastUsedB rs = true := by
  simp [noAdjFreeB, Bool.and_eq_true]

/-- A list whose pairs of adjacent runs are never both free has at most one
free run at its very end. -/
theorem tailOk_of_pairOk {A : List Run} (h : pairOkB A = true) : tailOkB A = true := by
  rcases List.eq_nil_or_concat A with rfl | ⟨A₀, a, rfl⟩
  · rfl
  · rw [List.concat_eq_append] at h ⊢
    by_cases hu : a.used
    · simp [tailOkB, List.getLast?_concat, hu]
    · rcases List.eq_nil_or_concat A₀ with rfl | ⟨A₁, a', rfl⟩
      · simp [tailOkB, List.getLast?_concat]
      · rw [List.concat_eq_append] at h ⊢
        have hre : (A₁ ++ [a']) ++ [a] = A₁ ++ a' :: a :: [] := by
          simp
        rw [hre] at h
        have hpr := pairOkB_pair h
        have ha' : a'.used = true := by
          rcases Bool.or_eq_true_iff.mp hpr with h1 | h1
          · exact h1
          · exact absurd h1 hu
        simp [tailOkB, List.getLast?_concat, List.dropLast_concat, hu, ha']

/-- A list whose pairs of adjacent runs are never both free has at most one
free run at its very start. -/
theorem headOk_of_pair {B : List Run} (h : pairOkB B = true) : headOkB B = true := by
  cases B with
  | nil => rfl
  | cons b B' =>
      cases B' with
      | nil => simp [headOkB]
      | cons b' B'' =>
          have hpr := (pairOkB_cons_cons.mp h).1
          rcases Bool.or_eq_true_iff.mp hpr with h1 | h1 <;> simp [headOkB, h1]

/-- Facts about the suffix kept by `mergeInfo` when the merge does not run
into the terminal free region. -/
theorem mergeInfo_facts {B B' : List Run} {exR : Int}
    (hmi : mergeInfo B = (B', exR, false)) (hp : pairOkB B = true) :
    headUsedB B' = true ∧ pairOkB B' = true ∧ B' ≠ [] ∧
      lastUsedB B' = lastUsedB B := by
  cases B with
  | nil => exact absurd hmi (by simp [mergeInfo_nil])
  | cons b rest =>
      obtain ⟨bs, bu⟩ := b
      cases bu
      · cases rest with
        | nil => exact absurd hmi (by rw [mergeInfo_free_nil]; simp)
        | cons b2 B₃ =>
            rw [mergeInfo_free_cons] at hmi
            injection hmi with h1 h2
            subst h1
            have hb2 : b2.used = true := by
              have hpr := (pairOkB_cons_cons.mp hp).1
              rcases Bool.or_eq_true_iff.mp hpr with hx | hx
              · exact absurd hx (by simp)
              · exact hx
            refine ⟨by simp [headUsedB, hb2], pairOkB_tail hp, by simp,
              (lastUsedB_cons_cons).symm⟩
      · rw [mergeInfo_used] at hmi
        injection hmi with h1 h2
        subst h1
        have hb : headUsedB (⟨bs, true⟩ :: rest) = true := by simp [headUsedB]
        exact ⟨hb, hp, by simp, rfl⟩

/-- Facts about the prefix kept by `dropTailFree`. -/
theorem dropTailFree_facts {A A' : List Run} {exL : Int}
    (hdtf : dropTailFree A = (A', exL)) (hp : pairOkB A = true) :
    pairOkB A' = true ∧ lastUsedB A' = true := by
  rcases List.eq_nil_or_concat A with rfl | ⟨A₀, a, rfl⟩
  · rw [dropTailFree_nil] at hdtf
    injection hdtf with h1 h2
    subst h1
    exact ⟨rfl, rfl⟩
  · rw [List.concat_eq_append] at hdtf hp
    by_cases hu : a.used = true
    · obtain ⟨as, au⟩ := a
      cases au
      · exact absurd hu (by simp)
      · rw [dropTailFree_used] at hdtf
        injection hdtf with h1 h2
        subst h1
        exact ⟨hp, by simp [lastUsedB, List.getLast?_concat]⟩
    · obtain ⟨as, au⟩ := a
      cases au
      · rw [dropTailFree_free] at hdtf
        injection hdtf with h1 h2
        subst h1
        refine ⟨pairOkB_left hp, ?_⟩
        rcases List.eq_nil_or_concat A₀ with rfl | ⟨A₁, a', rfl⟩
        · rfl
        · rw [List.concat_eq_append] at hp ⊢
          have hre : (A₁ ++ [a']) ++ [⟨as, false⟩] = A₁ ++ a' :: ⟨as, false⟩ :: [] := by
            simp
          rw [hre] at hp
          have hpr := pairOkB_pair hp
          have ha' : a'.used = true := by
            rcases Bool.or_eq_true_iff.mp hpr with h1 | h1
            · exact h1
            · exact absurd h1 (by simp)
          simp [lastUsedB, List.getLast?_concat, ha']
      · exact absurd rfl hu

/-- Coalescing preserves the no-two-adjacent-free-runs invariant. -/
theorem noAdjFree_merged (A : List Run) (sz : Int) (B : List Run)
    (hpA : pairOkB A = true) (hpB : pairOkB B = true)
    (hlB : lastUsedB B = true) :
    noAdjFreeB (mergedRuns A sz B) = true := by
  obtain ⟨A', exL, hdtf⟩ : ∃ A' exL, dropTailFree A = (A', exL) :=
    ⟨(dropTailFree A).1, (dropTailFree A).2, rfl⟩
  obtain ⟨B', exR, toEnd, hmi⟩ :
      ∃ B' exR toEnd, mergeInfo B = (B', exR, toEnd) :=
    ⟨(mergeInfo B).1, (mergeInfo B).2.1, (mergeInfo B).2.2, rfl⟩
  obtain ⟨hpA', hlA'⟩ := dropTailFree_facts hdtf hpA
  cases toEnd
  · obtain ⟨hhu, hpB', hne, hlu⟩ := mergeInfo_facts hmi hpB
    have hmerged : mergedRuns A sz B = A' ++ ⟨exL + sz + exR, false⟩ :: B' := by
      unfold mergedRuns
      rw [hdtf, hmi]
      rfl
    rw [hmerged]
    refine noAdjFreeB_iff.mpr ⟨?_, ?_⟩
    · exact pairOkB_glue hpA' hlA' (pairOkB_build_cons hhu hpB')
    · rw [lastUsedB_append_cons]
      cases hB' : B' with
      | nil => exact absurd hB' hne
      | cons b2 B₂ =>
          rw [lastUsedB_cons_cons, ← hB', hlu]
          exact hlB
  · have hmerged : mergedRuns A sz B = A' := by
      unfold mergedRuns
      rw [hdtf, hmi]
      rfl
    rw [hmerged]
    exact noAdjFreeB_iff.mpr ⟨hpA', hlA'⟩

theorem lastUsedB_of_append_cons {A : List Run} {r : Run} {B : List Run}
    (h : lastUsedB (A ++ r :: B) = true) : lastUsedB B = true := by
  cases B with
  | nil => rfl
  | cons b BB =>
      rw [lastUsedB_append_cons, lastUsedB_cons_cons] at h
      exact h

theorem pairOkB_append_used {r : Run} (hr : r.used = true) :
    ∀ {A : List Run}, pairOkB A = true → pairOkB (A ++ [r]) = true := by
  intro A
  induction A with
  | nil => intro _; rfl
  | cons a A' ih =>
      intro hp
      cases A' with
      | nil =>
          refine pairOkB_cons_cons.mpr ⟨?_, rfl⟩
          simp [hr]
      | cons a' A'' =>
          have h' := pairOkB_cons_cons.mp hp
          exact pairOkB_cons_cons.mpr ⟨h'.1, ih h'.2⟩

theorem tailOkB_append_used (X : List Run) (r : Run) (hr : r.used = true) :
    tailOkB (X ++ [r]) = true := by
  simp [tailOkB, List.getLast?_concat, hr]

/-- Specification of `alloc_cells` as invoked by `do_shrink`: splitting the
in-use run of `sz` data cells headed at `cur` at the smaller count `req`
produces an in-use run of `req` cells followed by a free run of the remaining
`sz - req - 1` cells, leaves every other run intact, and moves `search_start`
to the split point exactly when it pointed into the original run. -/
theorem allocCells_shrink_spec (h : MuHeap) (A : List Run) (sz : Int) (B : List Run)
    (cur req : Int)
    (hrep : representsB h (A ++ ⟨sz, true⟩ :: B) = true)
    (hseg : segB h.mem h.ncells 0 A = some cur)
    (hreq0 : 0 ≤ req) (hreqsz : req < sz) :
    representsB (allocCells h cur cur (cur + req + 1) (cur + sz + 1) Caller.shrink)
        (A ++ ⟨req, true⟩ :: ⟨sz - req - 1, false⟩ :: B) = true ∧
      segB (allocCells h cur cur (cur + req + 1) (cur + sz + 1) Caller.shrink).mem
          h.ncells 0 (A ++ [⟨req, true⟩]) = some (cur + req + 1) ∧
      (allocCells h cur cur (cur + req + 1) (cur + sz + 1) Caller.shrink).searchStart =
        (if h.searchStart ≥ cur ∧ h.searchStart ≤ cur + sz + 1 then cur + req + 1
         else h.searchStart) ∧
      (allocCells h cur cur (cur + req + 1) (cur + sz + 1) Caller.shrink).base = h.base ∧
      (allocCells h cur cur (cur + req + 1) (cur + sz + 1) Caller.shrink).ncells =
        h.ncells ∧
      (allocCells h cur cur (cur + req + 1) (cur + sz + 1) Caller.shrink).givenBase =
        h.givenBase ∧
      (allocCells h cur cur (cur + req + 1) (cur + sz + 1) Caller.shrink).givenSize =
        h.givenSize := by
  have hrep' := hrep
  simp only [representsB, Bool.and_eq_true, decide_eq_true_eq] at hrep'
  obtain ⟨⟨hchain, hp0⟩, hn32⟩ := hrep'
  rcases chainB_append_iff.mp hchain with ⟨j, hsegj, hchB⟩
  rw [hseg] at hsegj
  injection hsegj with hj
  subst hj
  rcases chainB_cons.mp hchB with ⟨hok, hchB'⟩
  rcases runOkB_iff.mp hok with ⟨hcur0, hsz0', hnxtn', -, -⟩
  have hsz0 : (0 : Int) ≤ sz := hsz0'
  have hnxtn : cur + sz + 1 < h.ncells := hnxtn'
  have hchB2 : chainB h.mem h.ncells (cur + sz + 1) B = true := hchB'
  have e1 : allocCells h cur cur (cur + req + 1) (cur + sz + 1) Caller.shrink =
      { h with
        mem := setPrev (setNext (setPrev (setNext h.mem cur (cur + req + 1))
            (cur + req + 1) cur) (cur + req + 1) (notI (cur + sz + 1)))
          (cur + sz + 1) (notI (cur + req + 1)),
        searchStart := if h.searchStart ≥ cur ∧ h.searchStart ≤ cur + sz + 1
          then cur + req + 1 else h.searchStart } := by
    unfold allocCells
    simp only
    rw [if_neg (lt_irrefl cur), if_pos (show cur + req + 1 < cur + sz + 1 by omega),
      if_pos hnxtn]
    by_cases hss : h.searchStart ≥ cur ∧ h.searchStart ≤ cur + sz + 1
    · rw [if_pos (Or.inr hss), if_pos hss]
    · have hcond : ¬ (Caller.shrink = Caller.alloc ∨
          (h.searchStart ≥ cur ∧ h.searchStart ≤ cur + sz + 1)) := by
        rintro (hc | hc)
        · exact Caller.noConfusion hc
        · exact hss hc
      rw [if_neg hcond, if_neg hss]
  have hmem : (allocCells h cur cur (cur + req + 1) (cur + sz + 1) Caller.shrink).mem =
      setPrev (setNext (setPrev (setNext h.mem cur (cur + req + 1))
          (cur + req + 1) cur) (cur + req + 1) (notI (cur + sz + 1)))
        (cur + sz + 1) (notI (cur + req + 1)) := by
    rw [e1]
  set m2 : Mem :=
    setPrev (setNext (setPrev (setNext h.mem cur (cur + req + 1))
        (cur + req + 1) cur) (cur + req + 1) (notI (cur + sz + 1)))
      (cur + sz + 1) (notI (cur + req + 1)) with hm2
  have hb1 : -32768 ≤ cur + req + 1 ∧ cur + req + 1 ≤ 32767 := by omega
  have hb2 : -32768 ≤ notI (cur + sz + 1) ∧ notI (cur + sz + 1) ≤ 32767 := by
    unfold notI
    omega
  have hb3 : -32768 ≤ notI (cur + req + 1) ∧ notI (cur + req + 1) ≤ 32767 := by
    unfold notI
    omega
  have hb4 : -32768 ≤ cur ∧ cur ≤ 32767 := by omega
  have hnext_cur : nextOf m2 cur = cur + req + 1 := by
    rw [hm2, nextOf_setPrev, nextOf_setNext_ne _ _ (show cur ≠ cur + req + 1 by omega),
      nextOf_setPrev, nextOf_setNext_self _ _ hb1.1 hb1.2]
  have hprev_en : prevOf m2 (cur + req + 1) = cur := by
    rw [hm2, prevOf_setPrev_ne _ _ (show cur + req + 1 ≠ cur + sz + 1 by omega),
      prevOf_setNext, prevOf_setPrev_self _ _ hb4.1 hb4.2]
  have hnext_en : nextOf m2 (cur + req + 1) = notI (cur + sz + 1) := by
    rw [hm2, nextOf_setPrev, nextOf_setNext_self _ _ hb2.1 hb2.2]
  have hprev_nxt : prevOf m2 (cur + sz + 1) = notI (cur + req + 1) := by
    rw [hm2, prevOf_setPrev_self _ _ hb3.1 hb3.2]
  have hnext_other : ∀ c, c ≠ cur → c ≠ cur + req + 1 → nextOf m2 c = nextOf h.mem c := by
    intro c h1 h2
    rw [hm2, nextOf_setPrev, nextOf_setNext_ne _ _ h2, nextOf_setPrev,
      nextOf_setNext_ne _ _ h1]
  have hprev_other : ∀ c, c ≠ cur + req + 1 → c ≠ cur + sz + 1 →
      prevOf m2 c = prevOf h.mem c := by
    intro c h1 h2
    rw [hm2, prevOf_setPrev_ne _ _ h2, prevOf_setNext, prevOf_setPrev_ne _ _ h1,
      prevOf_setNext]
  have hsegA' : segB m2 h.ncells 0 A = some cur := by
    refine segB_frame hseg ?_ ?_
    · intro c hc1 hc2
      exact hnext_other c (by omega) (by omega)
    · intro c hc1 hc2
      exact hprev_other c (by omega) (by omega)
  have hok1 : runOkB m2 h.ncells cur ⟨req, true⟩ = true := by
    refine runOkB_iff.mpr ⟨hcur0, hreq0, ?_, ?_, ?_⟩
    · show cur + req + 1 < h.ncells
      omega
    · intro _
      exact ⟨hnext_cur, hprev_en⟩
    · intro hc
      exact nomatch hc
  have harith : cur + req + 1 + (sz - req - 1) + 1 = cur + sz + 1 := by omega
  have hok2 : runOkB m2 h.ncells (cur + req + 1) ⟨sz - req - 1, false⟩ = true := by
    refine runOkB_iff.mpr ⟨by omega, ?_, ?_, ?_, ?_⟩
    · show (0 : Int) ≤ sz - req - 1
      omega
    · show cur + req + 1 + (sz - req - 1) + 1 < h.ncells
      omega
    · intro hc
      exact nomatch hc
    · intro _
      constructor
      · show nextOf m2 (cur + req + 1) = notI (cur + req + 1 + (sz - req - 1) + 1)
        rw [harith]
        exact hnext_en
      · show prevOf m2 (cur + req + 1 + (sz - req - 1) + 1) = notI (cur + req + 1)
        rw [harith]
        exact hprev_nxt
  have hchB3 : chainB m2 h.ncells (cur + sz + 1) B = true := by
    refine chainB_frame hchB2 ?_ ?_
    · intro c hc1 hc2
      exact hnext_other c (by omega) (by omega)
    · intro c hc1 hc2
      exact hprev_other c (by omega) (by omega)
  have hchB4 : chainB m2 h.ncells (cur + req + 1 + (sz - req - 1) + 1) B = true := by
    rw [harith]
    exact hchB3
  refine ⟨?_, ?_, ?_, ?_, ?_, ?_, ?_⟩
  · simp only [representsB, Bool.and_eq_true, decide_eq_true_eq]
    rw [hmem]
    refine ⟨⟨?_, ?_⟩, ?_⟩
    · exact chainB_append_iff.mpr
        ⟨cur, hsegA', chainB_cons.mpr ⟨hok1, chainB_cons.mpr ⟨hok2, hchB4⟩⟩⟩
    · rw [hprev_other 0 (by omega) (by omega)]
      exact hp0
    · rw [e1]
      exact hn32
  · rw [hmem]
    rw [segB_append, hsegA']
    simp only [Option.some_bind, segB]
    rw [if_pos hok1]
  · rw [e1]
  · rw [e1]
  · rw [e1]
  · rw [e1]
  · rw [e1]

/-- Master specification of `do_shrink` on a consistently used heap: shrinking
the in-use run of `sz` data cells headed at `cur` to a strictly smaller cell
count returns the original pointer and splits the run, coalescing the freed
tail with whatever follows. -/
theorem doShrink_spec (h : MuHeap) (A : List Run) (sz : Int) (B : List Run)
    (cur : Int) (ptr oldSize newSize f : Nat)
    (hrep : representsB h (A ++ ⟨sz, true⟩ :: B) = true)
    (hseg : segB h.mem h.ncells 0 A = some cur)
    (hhead : headOkB B = true)
    (hptr : ptr = runPtr h cur)
    (hreq : ncellsUp newSize < sz) :
    ∃ h2, doShrink h ptr oldSize newSize (f + 3) = some (ptr, h2) ∧
      representsB h2 (shrunkRuns A (ncellsUp newSize) sz B) = true ∧
      h2.searchStart = mergedSS
        (if h.searchStart ≥ cur ∧ h.searchStart ≤ cur + sz + 1
          then cur + ncellsUp newSize + 1 else h.searchStart)
        (cur + ncellsUp newSize + 1) (sz - ncellsUp newSize - 1)
        (A ++ [⟨ncellsUp newSize, true⟩]) B ∧
      h2.base = h.base ∧ h2.ncells = h.ncells ∧
      h2.givenBase = h.givenBase ∧ h2.givenSize = h.givenSize := by
  have hreq0 : 0 ≤ ncellsUp newSize := ncellsUp_nonneg _
  have hrep' := hrep
  simp only [representsB, Bool.and_eq_true, decide_eq_true_eq] at hrep'
  obtain ⟨⟨hchain, hp0⟩, hn32⟩ := hrep'
  rcases chainB_append_iff.mp hchain with ⟨j, hsegj, hchB⟩
  rw [hseg] at hsegj
  injection hsegj with hj
  subst hj
  rcases chainB_cons.mp hchB with ⟨hok, -⟩
  rcases runOkB_iff.mp hok with ⟨hcur0, hsz0', hnxtn', hlinkU, -⟩
  have hsz0 : (0 : Int) ≤ sz := hsz0'
  have hnxtn : cur + sz + 1 < h.ncells := hnxtn'
  have hnxt : nextOf h.mem cur = cur + sz + 1 := by
    have hl := hlinkU rfl
    exact hl.1
  have hcell : ptrToCell h ptr = cur := by
    rw [hptr]
    exact ptrToCell_runPtr h hcur0 (by omega)
  have henA : addw cur (ncellsUp newSize) = cur + ncellsUp newSize :=
    addw_eq (by omega) (by omega)
  have hen : addw (addw cur (ncellsUp newSize)) 1 = cur + ncellsUp newSize + 1 := by
    rw [henA]
    exact addw_eq (by omega) (by omega)
  obtain ⟨hrep1, hseg1, hss1, hb1, hn1, hgb1, hgs1⟩ :=
    allocCells_shrink_spec h A sz B cur (ncellsUp newSize) hrep hseg hreq0 hreq
  have hrep1' : representsB
      (allocCells h cur cur (cur + ncellsUp newSize + 1) (cur + sz + 1) Caller.shrink)
      ((A ++ [⟨ncellsUp newSize, true⟩]) ++ ⟨sz - ncellsUp newSize - 1, false⟩ :: B) =
      true := by
    rw [List.append_assoc]
    exact hrep1
  have hseg1' : segB
      (allocCells h cur cur (cur + ncellsUp newSize + 1) (cur + sz + 1)
        Caller.shrink).mem
      (allocCells h cur cur (cur + ncellsUp newSize + 1) (cur + sz + 1)
        Caller.shrink).ncells
      0 (A ++ [⟨ncellsUp newSize, true⟩]) = some (cur + ncellsUp newSize + 1) := by
    rw [hn1]
    exact hseg1
  obtain ⟨h2, hfc, hrep2, hss2, hb2, hn2, hgb2, hgs2⟩ :=
    freeCells_spec
      (allocCells h cur cur (cur + ncellsUp newSize + 1) (cur + sz + 1) Caller.shrink)
      (A ++ [⟨ncellsUp newSize, true⟩]) (sz - ncellsUp newSize - 1) false B
      (cur + ncellsUp newSize + 1) f hrep1' hseg1'
      (tailOkB_append_used A ⟨ncellsUp newSize, true⟩ rfl) hhead
  rw [show cur + ncellsUp newSize + 1 + (sz - ncellsUp newSize - 1) + 1 = cur + sz + 1
    from by omega] at hfc
  refine ⟨h2, ?_, ?_, ?_, hb2.trans hb1, hn2.trans hn1, hgb2.trans hgb1,
    hgs2.trans hgs1⟩
  · unfold doShrink
    simp only
    rw [hcell, hnxt, hen,
      if_pos (show cur + ncellsUp newSize + 1 < cur + sz + 1 by omega), hfc]
    rfl
  · unfold shrunkRuns
    exact hrep2
  · rw [hss2, hss1]

/-- C9: `shrink(p, old_size, new_size, align)` never relocates: every
successful `shrink` returns its argument pointer unchanged (first conjunct,
with no well-formedness assumptions); and when the new cell count
`ncells_up(new_size)` is strictly smaller than the run's data cell count, the
run is split at the new count, the freed tail becomes a free run, and that
tail is coalesced with whatever follows (second conjunct, via `shrunkRuns`). -/
theorem claim_C9_shrink_no_relocate_splits :
    (∀ (h : MuHeap) (ptr oldSize newSize fuel : Nat) (r : Nat × MuHeap),
        muShrink h ptr oldSize newSize fuel = some r → r.1 = ptr) ∧
    (∀ (h : MuHeap) (A : List Run) (sz : Int) (B : List Run) (cur : Int)
        (ptr oldSize newSize f : Nat),
        representsB h (A ++ ⟨sz, true⟩ :: B) = true →
        segB h.mem h.ncells 0 A = some cur →
        headOkB B = true →
        ptr = runPtr h cur →
        oldSize ≠ 0 →
        ncellsUp newSize < sz →
        ∃ h2, muShrink h ptr oldSize newSize (f + 3) = some (ptr, h2) ∧
          representsB h2 (shrunkRuns A (ncellsUp newSize) sz B) = true) := by
  constructor
  · intro h ptr oldSize newSize fuel r hr
    unfold muShrink at hr
    by_cases h0 : oldSize = 0
    · rw [if_pos h0] at hr
      injection hr with h1
      rw [← h1]
    · rw [if_neg h0] at hr
      unfold doShrink at hr
      simp only at hr
      split at hr
      · rcases Option.bind_eq_some.mp hr with ⟨a, -, h1⟩
        injection h1 with h1
        rw [← h1]
      · injection hr with h1
        rw [← h1]
  · intro h A sz B cur ptr oldSize newSize f hrep hseg hhead hptr hold hreq
    obtain ⟨h2, heq, hrep2, -, -, -, -, -⟩ :=
      doShrink_spec h A sz B cur ptr oldSize newSize f hrep hseg hhead hptr hreq
    refine ⟨h2, ?_, hrep2⟩
    unfold muShrink
    rw [if_neg hold]
    exact heq

/-- Witness for C9: shrinking the single 100-byte allocation A (run of 25
data cells headed at cell 0) to 50 bytes (13 cells) returns A's pointer and
splits the run. -/
theorem claim_C9_shrink_no_relocate_splits_witness :
    muShrink c3hA c3ptrA 100 50 50 = some (c3ptrA, outHeap c9res c3hA) ∧
      representsB (outHeap c9res c3hA) (shrunkRuns [] (ncellsUp 50) 25 []) = true ∧
      outPtr c9res = c3ptrA := by
  obtain ⟨h2, heq, hrep⟩ :=
    claim_C9_shrink_no_relocate_splits.2 c3hA [] 25 [] 0 c3ptrA 100 50 47
      (by decide) rfl rfl (by decide) (by decide) (by decide)
  have hc : c9res = some (c3ptrA, h2) := heq
  have hout : outHeap c9res c3hA = h2 := by rw [hc]; rfl
  refine ⟨by rw [hout]; exact heq, by rw [hout]; exact hrep, ?_⟩
  have hr : muShrink c3hA c3ptrA 100 50 50 = some (outPtr c9res, outHeap c9res c3hA) := by
    rw [hc]
    exact heq
  exact claim_C9_shrink_no_relocate_splits.1 c3hA c3ptrA 100 50 50
    (outPtr c9res, outHeap c9res c3hA) hr

/-- C7: after a `dealloc` (first conjunct) and after a splitting `shrink`
(second conjunct) on a consistently used heap whose run list has no two
adjacent free runs, the resulting run list again has no two adjacent free
runs: the freed run is merged with the immediately adjacent free runs on both
sides, and after `dealloc` the `search_start` cursor moves to the merged
run's head exactly when it pointed inside the merged span (`mergedSS`). -/
theorem claim_C7_coalesce_invariant :
    (∀ (h : MuHeap) (A : List Run) (sz : Int) (B : List Run) (cur : Int)
        (ptr size f : Nat),
        representsB h (A ++ ⟨sz, true⟩ :: B) = true →
        noAdjFreeB (A ++ ⟨sz, true⟩ :: B) = true →
        segB h.mem h.ncells 0 A = some cur →
        ptr = runPtr h cur →
        size ≠ 0 →
        ∃ h', muDealloc h ptr size (f + 3) = some h' ∧
          representsB h' (mergedRuns A sz B) = true ∧
          noAdjFreeB (mergedRuns A sz B) = true ∧
          h'.searchStart = mergedSS h.searchStart cur sz A B) ∧
    (∀ (h : MuHeap) (A : List Run) (sz : Int) (B : List Run) (cur : Int)
        (ptr oldSize newSize f : Nat),
        representsB h (A ++ ⟨sz, true⟩ :: B) = true →
        noAdjFreeB (A ++ ⟨sz, true⟩ :: B) = true →
        segB h.mem h.ncells 0 A = some cur →
        ptr = runPtr h cur →
        oldSize ≠ 0 →
        ncellsUp newSize < sz →
        ∃ h2, muShrink h ptr oldSize newSize (f + 3) = some (ptr, h2) ∧
          representsB h2 (shrunkRuns A (ncellsUp newSize) sz B) = true ∧
          noAdjFreeB (shrunkRuns A (ncellsUp newSize) sz B) = true) := by
  constructor
  · intro h A sz B cur ptr size f hrep hna hseg hptr hsz
    rcases noAdjFreeB_iff.mp hna with ⟨hpair, hlast⟩
    have hpA : pairOkB A = true := pairOkB_left hpair
    have hpB : pairOkB B = true := pairOkB_tail (pairOkB_suffix (X := A) hpair)
    have hlB : lastUsedB B = true := lastUsedB_of_append_cons hlast
    have htail : tailOkB A = true := tailOk_of_pairOk hpA
    have hhead : headOkB B = true := headOk_of_pair hpB
    have hrep' := hrep
    simp only [representsB, Bool.and_eq_true, decide_eq_true_eq] at hrep'
    obtain ⟨⟨hchain, hp0⟩, hn32⟩ := hrep'
    rcases chainB_append_iff.mp hchain with ⟨j, hsegj, hchB⟩
    rw [hseg] at hsegj
    injection hsegj with hj
    subst hj
    rcases chainB_cons.mp hchB with ⟨hok, -⟩
    rcases runOkB_iff.mp hok with ⟨hcur0, hsz0', hnxtn', hlinkU, -⟩
    have hnxtn : cur + sz + 1 < h.ncells := hnxtn'
    have hnxt : nextOf h.mem cur = cur + sz + 1 := (hlinkU rfl).1
    have hcell : ptrToCell h ptr = cur := by
      rw [hptr]
      exact ptrToCell_runPtr h hcur0 (by omega)
    obtain ⟨h', hfc, hrep2, hss, hb, hn, hgb, hgs⟩ :=
      freeCells_spec h A sz true B cur f hrep hseg htail hhead
    refine ⟨h', ?_, hrep2, noAdjFree_merged A sz B hpA hpB hlB, hss⟩
    unfold muDealloc
    rw [if_neg hsz]
    unfold doDealloc
    simp only
    rw [hcell, hnxt]
    exact hfc
  · intro h A sz B cur ptr oldSize newSize f hrep hna hseg hptr hold hreq
    rcases noAdjFreeB_iff.mp hna with ⟨hpair, hlast⟩
    have hpA : pairOkB A = true := pairOkB_left hpair
    have hpB : pairOkB B = true := pairOkB_tail (pairOkB_suffix (X := A) hpair)
    have hlB : lastUsedB B = true := lastUsedB_of_append_cons hlast
    have hhead : headOkB B = true := headOk_of_pair hpB
    obtain ⟨h2, heq, hrep2, -, -, -, -, -⟩ :=
      doShrink_spec h A sz B cur ptr oldSize newSize f hrep hseg hhead hptr hreq
    have hna2 : noAdjFreeB (shrunkRuns A (ncellsUp newSize) sz B) = true := by
      unfold shrunkRuns
      exact noAdjFree_merged _ _ _ (pairOkB_append_used rfl hpA) hpB hlB
    refine ⟨h2, ?_, hrep2, hna2⟩
    unfold muShrink
    rw [if_neg hold]
    exact heq

/-- Witness for C7: freeing A (run 0–26) next to the in-use B (run 26–40)
merges A into a single free run and keeps the invariant; shrinking A likewise. -/
theorem claim_C7_coalesce_invariant_witness :
    (muDealloc c3hB c3ptrA 100 50 = some (outHeapD c7res c3hB) ∧
      representsB (outHeapD c7res c3hB) (mergedRuns [] 25 [⟨13, true⟩]) = true ∧
      noAdjFreeB (mergedRuns [] 25 [⟨13, true⟩]) = true ∧
      (outHeapD c7res c3hB).searchStart =
        mergedSS c3hB.searchStart 0 25 [] [⟨13, true⟩]) ∧
    (muShrink c3hB c3ptrA 100 50 50 = some (c3ptrA, outHeap c7sres c3hB) ∧
      representsB (outHeap c7sres c3hB)
        (shrunkRuns [] (ncellsUp 50) 25 [⟨13, true⟩]) = true ∧
      noAdjFreeB (shrunkRuns [] (ncellsUp 50) 25 [⟨13, true⟩]) = true) := by
  constructor
  · obtain ⟨h', heq, hrep, hna, hss⟩ :=
      claim_C7_coalesce_invariant.1 c3hB [] 25 [⟨13, true⟩] 0 c3ptrA 100 47
        (by decide) (by decide) rfl (by decide) (by decide)
    have hc : c7res = some h' := heq
    have hout : outHeapD c7res c3hB = h' := by rw [hc]; rfl
    exact ⟨by rw [hout]; exact heq, by rw [hout]; exact hrep, hna,
      by rw [hout]; exact hss⟩
  · obtain ⟨h2, heq, hrep, hna⟩ :=
      claim_C7_coalesce_invariant.2 c3hB [] 25 [⟨13, true⟩] 0 c3ptrA 100 50 47
        (by decide) (by decide) rfl (by decide) (by decide) (by decide)
    have hc : c7sres = some (c3ptrA, h2) := heq
    have hout : outHeap c7sres c3hB = h2 := by rw [hc]; rfl
    exact ⟨by rw [hout]; exact heq, by rw [hout]; exact hrep, hna⟩

/-- Walking the scan loop along a segment of runs that all fail the fit
check: the loop either stops with the null result (when it reaches the
starting cursor) or arrives at the segment's end head. -/
theorem allocLoop_failSeg (h : MuHeap) (align : Nat) (req ss : Int) :
    ∀ (S : List Run) (f : Nat) (i t : Int),
      segB h.mem h.ncells i S = some t →
      failSegB align req i S = true →
      allocLoop h align req ss (S.length + f) i = some (0, h) ∨
        allocLoop h align req ss (S.length + f) i = allocLoop h align req ss f t := by
  intro S
  induction S with
  | nil =>
      intro f i t hseg _
      injection hseg with h1
      subst h1
      rw [show ([] : List Run).length + f = f from by simp]
      right
      rfl
  | cons r S' ih =>
      intro f i t hseg hfail
      simp only [segB] at hseg
      split at hseg
      · rename_i hok
        rcases runOkB_iff.mp hok with ⟨hi0, hsz0, hjn, hlinkU, hlinkF⟩
        simp only [failSegB, Bool.and_eq_true] at hfail
        obtain ⟨hfail1, hfail2⟩ := hfail
        have hlen : (r :: S').length + f = (S'.length + f) + 1 := by
          simp only [List.length_cons]
          omega
        rw [hlen]
        simp only [allocLoop]
        cases hru : r.used
        · have hnv : nextOf h.mem i = notI (i + r.size + 1) := (hlinkF hru).1
          rw [hnv, if_neg (show ¬ notI (i + r.size + 1) > 0 by unfold notI; omega),
            if_pos (show notI (i + r.size + 1) < 0 by unfold notI; omega), notI_notI]
          have hff : fitFailB align req i (i + r.size + 1) = true := by
            rw [hru] at hfail1
            simpa using hfail1
          have hlt : subw (subw (i + r.size + 1) (alignCell i align)) 1 < req := by
            simpa [fitFailB] using hff
          rw [if_neg (show
            ¬ subw (subw (i + r.size + 1) (alignCell i align)) 1 ≥ req by omega)]
          by_cases hss1 : i + r.size + 1 = ss
          · rw [if_pos hss1]
            left
            rfl
          · rw [if_neg hss1]
            exact ih f (i + r.size + 1) t hseg hfail2
        · have hnv : nextOf h.mem i = i + r.size + 1 := (hlinkU hru).1
          rw [hnv, if_pos (show i + r.size + 1 > 0 by omega)]
          by_cases hss1 : i + r.size + 1 = ss
          · rw [if_pos hss1]
            left
            rfl
          · rw [if_neg hss1]
            exact ih f (i + r.size + 1) t hseg hfail2
      · exact absurd hseg (by simp)

/-- Walking the scan loop along a failing segment that ends exactly at the
starting cursor: the loop stops with the null result and the unchanged heap. -/
theorem allocLoop_failSeg_stop (h : MuHeap) (align : Nat) (req ss : Int) :
    ∀ (S : List Run) (f : Nat) (i : Int), S ≠ [] →
      segB h.mem h.ncells i S = some ss →
      failSegB align req i S = true →
      allocLoop h align req ss (S.length + f) i = some (0, h) := by
  intro S
  induction S with
  | nil =>
      intro f i hne
      exact absurd rfl hne
  | cons r S' ih =>
      intro f i _ hseg hfail
      simp only [segB] at hseg
      split at hseg
      · rename_i hok
        rcases runOkB_iff.mp hok with ⟨hi0, hsz0, hjn, hlinkU, hlinkF⟩
        simp only [failSegB, Bool.and_eq_true] at hfail
        obtain ⟨hfail1, hfail2⟩ := hfail
        have hlen : (r :: S').length + f = (S'.length + f) + 1 := by
          simp only [List.length_cons]
          omega
        rw [hlen]
        simp only [allocLoop]
        cases hru : r.used
        · have hnv : nextOf h.mem i = notI (i + r.size + 1) := (hlinkF hru).1
          rw [hnv, if_neg (show ¬ notI (i + r.size + 1) > 0 by unfold notI; omega),
            if_pos (show notI (i + r.size + 1) < 0 by unfold notI; omega), notI_notI]
          have hff : fitFailB align req i (i + r.size + 1) = true := by
            rw [hru] at hfail1
            simpa using hfail1
          have hlt : subw (subw (i + r.size + 1) (alignCell i align)) 1 < req := by
            simpa [fitFailB] using hff
          rw [if_neg (show
            ¬ subw (subw (i + r.size + 1) (alignCell i align)) 1 ≥ req by omega)]
          by_cases hss1 : i + r.size + 1 = ss
          · rw [if_pos hss1]
          · rw [if_neg hss1]
            cases S' with
            | nil =>
                exfalso
                injection hseg with hj
                exact hss1 hj
            | cons q Q => exact ih f (i + r.size + 1) (by simp) hseg hfail2
        · have hnv : nextOf h.mem i = i + r.size + 1 := (hlinkU hru).1
          rw [hnv, if_pos (show i + r.size + 1 > 0 by omega)]
          by_cases hss1 : i + r.size + 1 = ss
          · rw [if_pos hss1]
          · rw [if_neg hss1]
            cases S' with
            | nil =>
                exfalso
                injection hseg with hj
                exact hss1 hj
            | cons q Q => exact ih f (i + r.size + 1) (by simp) hseg hfail2
      · exact absurd hseg (by simp)

/-- The scan loop at the terminal free region when the fit check fails there:
stop with the null result if the cursor is 0, otherwise wrap around to cell 0. -/
theorem allocLoop_term (h : MuHeap) (align : Nat) (req ss : Int) (f : Nat) (t : Int)
    (hnt : nextOf h.mem t = 0)
    (hfail : failTermB align req h.ncells t = true) :
    allocLoop h align req ss (f + 1) t = some (0, h) ∨
      (ss ≠ 0 ∧ allocLoop h align req ss (f + 1) t = allocLoop h align req ss f 0) := by
  simp only [allocLoop]
  rw [hnt, if_neg (show ¬ (0 : Int) > 0 by omega), if_neg (lt_irrefl (0 : Int))]
  have hlt : subw (subw h.ncells (alignCell t align)) 2 < req := by
    simpa [failTermB] using hfail
  rw [if_neg (show ¬ subw (subw h.ncells (alignCell t align)) 2 ≥ req by omega)]
  by_cases hss : (0 : Int) = ss
  · rw [if_pos hss]
    left
    rfl
  · rw [if_neg hss]
    right
    exact ⟨fun hc => hss hc.symm, rfl⟩

/-- C2: on a built heap whose run list splits as `P ++ S` at the
`search_start` cursor, if the scan's fit check fails at every free run of `S`,
at the terminal free region and at every free run of `P`, then `alloc`
returns the null pointer together with the *original* heap state `h`: the
cell array, the `search_start` cursor and every allocation's bytes are
unchanged. -/
theorem claim_C2_alloc_failure_frame (h : MuHeap) (size align fuel : Nat)
    (P S : List Run) (t : Int)
    (hrep : representsB h (P ++ S) = true)
    (hsegP : segB h.mem h.ncells 0 P = some h.searchStart)
    (hsegS : segB h.mem h.ncells h.searchStart S = some t)
    (hfP : failSegB align (ncellsUp size) 0 P = true)
    (hfS : failSegB align (ncellsUp size) h.searchStart S = true)
    (hfT : failTermB align (ncellsUp size) h.ncells t = true)
    (hsize : size ≠ 0) (hbase : h.base ≠ 0)
    (hfuel : S.length + P.length + 2 ≤ fuel) :
    muAlloc h size align fuel = some (0, h) := by
  have hrep' := hrep
  simp only [representsB, Bool.and_eq_true, decide_eq_true_eq] at hrep'
  obtain ⟨⟨hchain, hp0⟩, hn32⟩ := hrep'
  rcases chainB_append_iff.mp hchain with ⟨j, hsegj, hchS⟩
  rw [hsegP] at hsegj
  injection hsegj with hj
  subst hj
  have hterm := hchS
  unfold chainB at hterm
  rw [hsegS] at hterm
  simp only [Bool.and_eq_true, decide_eq_true_eq] at hterm
  obtain ⟨⟨ht0, htn⟩, hnt⟩ := hterm
  obtain ⟨f1, rfl⟩ : ∃ f1, fuel = S.length + f1 := ⟨fuel - S.length, by omega⟩
  unfold muAlloc
  simp only
  rw [if_neg hbase, if_neg hsize]
  unfold doAlloc
  rcases allocLoop_failSeg h align (ncellsUp size) h.searchStart S f1
      h.searchStart t hsegS hfS with h1 | h1
  · exact h1
  · rw [h1]
    obtain ⟨f2, rfl⟩ : ∃ f2, f1 = f2 + 1 := ⟨f1 - 1, by omega⟩
    rcases allocLoop_term h align (ncellsUp size) h.searchStart f2 t hnt hfT with
      h2 | ⟨hssne, h2⟩
    · exact h2
    · rw [h2]
      cases P with
      | nil =>
          exfalso
          injection hsegP with hP
          exact hssne hP.symm
      | cons p P' =>
          obtain ⟨f3, rfl⟩ : ∃ f3, f2 = (p :: P').length + f3 :=
            ⟨f2 - (p :: P').length, by omega⟩
          exact allocLoop_failSeg_stop h align (ncellsUp size) h.searchStart
            (p :: P') f3 0 (by simp) hsegP hfP

/-- Witness for C2: a 12-byte request (3 cells) on the fresh 4-cell heap
fails (only 2 data cells are available) and returns the heap unchanged. -/
theorem claim_C2_alloc_failure_frame_witness :
    muAlloc hTiny 12 4 50 = some (0, hTiny) :=
  claim_C2_alloc_failure_frame hTiny 12 4 50 [] [] 0 (by decide) (by decide)
    (by decide) rfl rfl (by decide) (by decide) (by decide) (by decide)

end MuHeapModel